import Mathlib

/-!
Verification of the job-scraping pipeline (build_url.py, main.py,
scrap_urls.py, scrap_jobData.py, data_classification.py and the
optimized rate-limiter variants) against its natural-language
specification.  Each Python function that a claim mentions is given a
shallow embedding as an executable Lean definition; the theorems below
settle the claims against those definitions.
-/

namespace DataScraping

/- ========================= Definitions ========================= -/

/-- One entry of config/job_Type.json: an object with a "role" field. -/
structure JobType where
  role : String
deriving DecidableEq

/-- One entry of config/states.json (after the optional "countries"
unwrapping): an object whose "name" field may be missing. -/
structure LocEntry where
  name : Option String
deriving DecidableEq

/-- Base string used by build_wellfound_urls. -/
def wellfoundBase : String := "https://wellfound.com/role/l"

/-- URL built for one role and one location name. -/
def mkWellfoundUrl (role name : String) : String :=
  wellfoundBase ++ "/" ++ role ++ "/" ++ name

/-- Embedding of build_wellfound_urls (build_url.py lines 15-35): for
each job (outer loop) and each location (inner loop), take
loc.get("name") and, when it is truthy (present and non-empty), append
base/role/name. -/
def build_wellfound_urls (jobs : List JobType) (states : List LocEntry) :
    List String :=
  jobs.flatMap (fun job =>
    states.filterMap (fun loc =>
      match loc.name with
      | some n => if n = "" then none else some (mkWellfoundUrl job.role n)
      | none => none))

/-- One entry of the persisted wellfound_urls.json artifact. -/
structure UrlEntry where
  url : String
  value : Bool
deriving DecidableEq

/-- Embedding of the __main__ wrapping step (build_url.py lines 44-45):
each URL is wrapped as an object with "value": false. -/
def wrapUrls (urls : List String) : List UrlEntry :=
  urls.map (fun u => ⟨u, false⟩)

/-- Location names that survive the `if name:` check, in order. -/
def validNames (states : List LocEntry) : List String :=
  states.filterMap (fun loc =>
    match loc.name with
    | some n => if n = "" then none else some n
    | none => none)

/-- Observable actions of JobScrapingPipeline.run_pipeline: connecting
to storage, or starting one stage. -/
inductive PipeEvent where
  | connect
  | stage (name : String)
deriving DecidableEq

/-- Python truthiness test `not os.getenv(var)`: the variable is
missing or the empty string. -/
def envFalsy (v : Option String) : Bool :=
  match v with
  | none => true
  | some s => s = ""

/-- Required environment variables (main.py line 66). -/
def requiredVars : List String := ["MONGO_URI", "GROQ_API_KEY"]

/-- Embedding of JobScrapingPipeline.check_environment (main.py lines
64-79): collect the falsy required variables and succeed iff none. -/
def check_environment (env : String → Option String) : Bool :=
  (requiredVars.filter (fun v => envFalsy (env v))).isEmpty

/-- Stage names in the order run_pipeline tries them. -/
def stageOrder : List String :=
  ["generate_urls", "scrape_urls", "scrape_jobs", "classify"]

/-- Embedding of the per-stage blocks of run_pipeline (main.py lines
166-198): each stage in order is started when step is "all" or names
it; a failing stage returns False at once; a named step returns True
right after its stage. -/
def runStages (stageOk : String → Bool) (step : String) :
    List String → List PipeEvent → Bool × List PipeEvent
  | [], evs => (true, evs)
  | s :: rest, evs =>
    if step = "all" ∨ step = s then
      let evs' := evs ++ [PipeEvent.stage s]
      if stageOk s = false then (false, evs')
      else if step = s then (true, evs')
      else runStages stageOk step rest evs'
    else runStages stageOk step rest evs

/-- Embedding of JobScrapingPipeline.run_pipeline (main.py lines
155-205): environment check first, then the storage connection, then
the stages in order.  `stageOk` is the outcome each stage would report
if started; the event list records what was actually dispatched. -/
def run_pipeline (env : String → Option String) (connectOk : Bool)
    (stageOk : String → Bool) (step : String) : Bool × List PipeEvent :=
  if check_environment env = false then (false, [])
  else if connectOk = false then (false, [PipeEvent.connect])
  else runStages stageOk step stageOrder [PipeEvent.connect]

/-- Spec-side description of a run over "all": the stages attempted are
those up to and including the first failing one. -/
def stagesUpToFailure (stageOk : String → Bool) : List String → List String
  | [] => []
  | s :: rest =>
    if stageOk s then s :: stagesUpToFailure stageOk rest else [s]

/-- A document of the job_urls Mongo collection as the job-data stage
reads and writes it. -/
structure UrlDoc where
  url : String
  scraped : Bool
  scrape_failed : Bool
deriving DecidableEq

/-- A document inserted into the jobs collection: the extracted payload
plus the source_url metadata. -/
structure JobRow where
  source_url : String
  payload : String
deriving DecidableEq

/-- The stage's persistent state: the job_urls checkpoint collection
and the jobs output collection. -/
structure JobStageState where
  urls : List UrlDoc
  jobs : List JobRow
deriving DecidableEq

/-- update_one by key on a collection with a unique url index: rewrite
the first document carrying the key. -/
def updateDoc (key : String) (f : UrlDoc → UrlDoc) :
    List UrlDoc → List UrlDoc
  | [] => []
  | d :: ds => if d.url = key then f d :: ds else d :: updateDoc key f ds

/-- Mongo $set of the success branch (scrap_jobData.py lines 301-304):
scraped becomes true, scrape_failed is not touched. -/
def markScraped (d : UrlDoc) : UrlDoc :=
  { d with scraped := true }

/-- Mongo $set of the failure branch (scrap_jobData.py lines 313-317):
scraped becomes true and scrape_failed true. -/
def markFailedDoc (d : UrlDoc) : UrlDoc :=
  { d with scraped := true, scrape_failed := true }

/-- One iteration of the per-URL loop (scrap_jobData.py lines 284-318).
`uow` is the unit of work scrape_job_data: it returns the extracted
payload or none.  On success the payload is inserted into jobs and the
checkpoint is marked scraped; on failure the checkpoint is marked
scraped and scrape_failed. -/
def jobStageStep (uow : String → Option String) (s : JobStageState)
    (d : UrlDoc) : JobStageState :=
  match uow d.url with
  | some payload =>
    ⟨updateDoc d.url markScraped s.urls, s.jobs ++ [⟨d.url, payload⟩]⟩
  | none =>
    ⟨updateDoc d.url markFailedDoc s.urls, s.jobs⟩

/-- The pending query of the job-data stage (scrap_jobData.py line
272): documents with scraped == False. -/
def pendingUrls (urls : List UrlDoc) : List UrlDoc :=
  urls.filter (fun d => d.scraped = false)

/-- Embedding of the job-data stage run (scrap_jobData.py lines
271-318): snapshot the pending set, then process it in order.  The
second component lists the keys handed to the unit of work. -/
def runJobStage (uow : String → Option String) (s : JobStageState) :
    JobStageState × List String :=
  let pending := pendingUrls s.urls
  (pending.foldl (jobStageStep uow) s, pending.map (fun d => d.url))

/-- Spec-side description of what one run does to a checkpoint
document: an already-done document is untouched, a pending one is
marked according to the unit of work's outcome on its key. -/
def docAfterRun (uow : String → Option String) (d : UrlDoc) : UrlDoc :=
  if d.scraped then d
  else
    match uow d.url with
    | some _ => markScraped d
    | none => markFailedDoc d

/-- A document of the source jobs collection: the opaque job payload
plus an optional source_url field. -/
structure SourceJob where
  source_url : Option String
  payload : String
deriving DecidableEq

/-- A document of the classified_jobs collection, as written by
save_to_mongo: the classified body, and a source_url field that is
present only when save_to_mongo was given a truthy source_url. -/
structure ClassifiedDoc where
  source_url : Option String
  body : String
deriving DecidableEq

/-- save_to_mongo (data_classification.py lines 173-185): the
source_url metadata field is set only when the given value is truthy
(non-empty). -/
def save_to_mongo_doc (body : String) (src : String) : ClassifiedDoc :=
  ⟨if src = "" then none else some src, body⟩

/-- The key process_batch passes for a job: job.get("source_url",
"unknown"). -/
def jobKey (j : SourceJob) : String :=
  j.source_url.getD "unknown"

/-- The set of already classified URLs (data_classification.py lines
280-283): source_url values of destination documents carrying the
field. -/
def classifiedUrls (dest : List ClassifiedDoc) : List String :=
  dest.filterMap (fun d => d.source_url)

/-- The pending query of process_jobs (lines 288-292): source documents
whose source_url is not among the classified ones; a document lacking
the field always matches the $nin filter. -/
def pendingJobs (source : List SourceJob) (dest : List ClassifiedDoc) :
    List SourceJob :=
  source.filter (fun j =>
    match j.source_url with
    | some u => u ∉ classifiedUrls dest
    | none => true)

/-- One job of process_batch (lines 317-337): when classification
yields a dict it is saved with the job's key; otherwise nothing is
written. -/
def classifyStep (cls : SourceJob → Option String)
    (dest : List ClassifiedDoc) (j : SourceJob) : List ClassifiedDoc :=
  match cls j with
  | some body => dest ++ [save_to_mongo_doc body (jobKey j)]
  | none => dest

/-- Embedding of process_jobs (data_classification.py lines 278-315):
compute the pending set against the destination collection, then
process it in order.  The second component is the list of jobs handed
to classify_job_post. -/
def runClassifyStage (cls : SourceJob → Option String)
    (source : List SourceJob) (dest : List ClassifiedDoc) :
    List ClassifiedDoc × List SourceJob :=
  let pending := pendingJobs source dest
  (pending.foldl (classifyStep cls) dest, pending)

/-- Embedding of the attempt loop of scrape_job_data (scrap_jobData.py
lines 226-254), generic in the fetched content and extracted record.
The argument list is the remaining attempt numbers of range(1, 4);
`fetch` models zenrows_request (none = transient failure) and
`extract` models extract_job_data.  Returns the outcome and the number
of fetch calls made. -/
def scrapeAttemptsFrom {α β : Type} (fetch : Nat → Option α)
    (extract : α → Option β) : List Nat → Option β × Nat
  | [] => (none, 0)
  | a :: rest =>
    match fetch a with
    | none =>
      let r := scrapeAttemptsFrom fetch extract rest
      (r.1, r.2 + 1)
    | some h =>
      match extract h with
      | some j => (some j, 1)
      | none =>
        let r := scrapeAttemptsFrom fetch extract rest
        (r.1, r.2 + 1)

/-- scrape_job_data runs the attempt loop over attempts 1, 2, 3. -/
def scrape_job_data {α β : Type} (fetch : Nat → Option α)
    (extract : α → Option β) : Option β × Nat :=
  scrapeAttemptsFrom fetch extract [1, 2, 3]

/-- Python's `needle in hay` prefix step: does hay start with needle? -/
def startsWithSeq : List Char → List Char → Bool
  | [], _ => true
  | _ :: _, [] => false
  | a :: as, b :: bs => a = b && startsWithSeq as bs

/-- Python's substring test `needle in hay` on strings. -/
def containsSeq (needle : List Char) : List Char → Bool
  | [] => startsWithSeq needle []
  | b :: bs => startsWithSeq needle (b :: bs) || containsSeq needle bs

/-- The content-level 404 marker (scrap_urls.py line 110). -/
def marker404 : List Char := "Page not found (404)".toList

/-- The content-level zero-results marker (scrap_urls.py line 123). -/
def markerZero : List Char := "0 results total".toList

/-- How one page of scrape_pages_for_url ends. -/
inductive PageOutcome where
  | found404
  | zeroResults
  | nextPage (urls : List (List Char))
  | giveUp
deriving DecidableEq

/-- Embedding of the for-attempt loop of scrape_pages_for_url
(scrap_urls.py lines 98-168) for one page.  The argument list is the
remaining attempt numbers of range(1, 4); `fetch` models
zenrows_request and `extractUrls` models the lxml href extraction
(none = parsing error).  A fetch failure or a parsing error consumes
the attempt and continues; the 404 marker and the zero-results marker
return at once; a page with urls breaks to the next page; a page with
no urls retries and, on the last attempt, moves to the next page; the
for-else branch (all attempts consumed) gives up.  Returns the outcome
and the number of fetch calls made. -/
def pageAttemptsFrom (fetch : Nat → Option (List Char))
    (extractUrls : List Char → Option (List (List Char))) :
    List Nat → PageOutcome × Nat
  | [] => (PageOutcome.giveUp, 0)
  | a :: rest =>
    match fetch a with
    | none =>
      let r := pageAttemptsFrom fetch extractUrls rest
      (r.1, r.2 + 1)
    | some htmlSrc =>
      if containsSeq marker404 htmlSrc then (PageOutcome.found404, 1)
      else if containsSeq markerZero htmlSrc then (PageOutcome.zeroResults, 1)
      else
        match extractUrls htmlSrc with
        | none =>
          let r := pageAttemptsFrom fetch extractUrls rest
          (r.1, r.2 + 1)
        | some us =>
          if us.isEmpty then
            if rest.isEmpty then (PageOutcome.nextPage [], 1)
            else
              let r := pageAttemptsFrom fetch extractUrls rest
              (r.1, r.2 + 1)
          else (PageOutcome.nextPage us, 1)

/-- The attempt loop for one page, started at attempt 1. -/
def pageAttempts (fetch : Nat → Option (List Char))
    (extractUrls : List Char → Option (List (List Char))) :
    PageOutcome × Nat :=
  pageAttemptsFrom fetch extractUrls [1, 2, 3]

/-- An entry of the wellfound_urls.json checkpoint artifact as the URL
stage reads it. -/
structure TargetEntry where
  url : String
  value : Bool
deriving DecidableEq

/-- Embedding of the __main__ loop of scrap_urls.py (lines 186-200):
entries with value true are skipped; every other entry is scraped
(whatever the outcome of scrape_pages_for_url), then marked value true
and persisted.  Returns the persisted entry list and the base URLs
that were attempted. -/
def runUrlStage : List TargetEntry → List TargetEntry × List String
  | [] => ([], [])
  | e :: rest =>
    let r := runUrlStage rest
    if e.value then (e :: r.1, r.2)
    else ({ e with value := true } :: r.1, e.url :: r.2)

/-- In-process state of a rate limiter: the current wall clock (time is
modelled as an exact rational) and the recorded dispatch timestamps,
oldest first. -/
structure LimiterState where
  clock : ℚ
  calls : List ℚ
deriving DecidableEq

/-- The pruning step shared by both limiters: keep the timestamps
younger than one second. -/
def pruneCalls (now : ℚ) (calls : List ℚ) : List ℚ :=
  calls.filter (fun c => now - c < 1)

/-- Embedding of RateLimiter.wait_if_needed
(scrap_jobData_optimized.py lines 41-53) against an effective capacity.
`reqTime` is the value time.time() would return, never earlier than the
limiter's clock (real time is monotone).  When the pruned window is at
capacity the code reads self.calls[0]; on an empty window that raises
IndexError, modelled as none.  Otherwise it sleeps until the oldest
in-window timestamp is one second old, re-prunes, and records the
dispatch. -/
def waitIfNeededEff (effectiveMax : ℕ) (s : LimiterState) (reqTime : ℚ) :
    Option LimiterState :=
  if effectiveMax ≤ (pruneCalls (max s.clock reqTime) s.calls).length then
    match pruneCalls (max s.clock reqTime) s.calls with
    | [] => none
    | c0 :: _ =>
      if 0 < 1 - (max s.clock reqTime - c0) then
        some ⟨max s.clock reqTime + (1 - (max s.clock reqTime - c0)),
          pruneCalls (max s.clock reqTime + (1 - (max s.clock reqTime - c0)))
              (pruneCalls (max s.clock reqTime) s.calls)
            ++ [max s.clock reqTime + (1 - (max s.clock reqTime - c0))]⟩
      else
        some ⟨max s.clock reqTime,
          pruneCalls (max s.clock reqTime) s.calls ++ [max s.clock reqTime]⟩
  else
    some ⟨max s.clock reqTime,
      pruneCalls (max s.clock reqTime) s.calls ++ [max s.clock reqTime]⟩

/-- RateLimiter.wait_if_needed: the fixed-capacity limiter. -/
def wait_if_needed (maxCalls : ℕ) (s : LimiterState) (reqTime : ℚ) :
    Option LimiterState :=
  waitIfNeededEff maxCalls s reqTime

/-- The adaptive factor of ServerRateLimiter.wait_if_needed
(scrap_urls_server_optimized.py lines 81-88) as a function of the
sampled CPU percentage. -/
def adaptiveFactor (cpu : ℚ) : ℚ :=
  if 80 < cpu then 7 / 10
  else if cpu < 50 then 6 / 5
  else 1

/-- effective_max_calls = int(max_calls * adaptive_factor), with the
float product idealized as an exact rational. -/
def effectiveMaxCalls (maxCalls : ℕ) (cpu : ℚ) : ℕ :=
  if 80 < cpu then 7 * maxCalls / 10
  else if cpu < 50 then 6 * maxCalls / 5
  else maxCalls

/-- Embedding of ServerRateLimiter.wait_if_needed
(scrap_urls_server_optimized.py lines 75-99): same as the fixed
limiter but against the capacity scaled by the adaptive factor for the
CPU sample of this call. -/
def server_wait_if_needed (maxCalls : ℕ) (s : LimiterState)
    (reqTime cpu : ℚ) : Option LimiterState :=
  waitIfNeededEff (effectiveMaxCalls maxCalls cpu) s reqTime

/-- A whole run of the fixed limiter from an idle start: one
wait_if_needed per requested time. -/
def runLimiter (maxCalls : ℕ) (reqTimes : List ℚ) : Option LimiterState :=
  reqTimes.foldl
    (fun acc r => acc.bind (fun s => wait_if_needed maxCalls s r))
    (some ⟨0, []⟩)

/-- A whole run of the adaptive server limiter from an idle start: each
call carries the time.time() value and the CPU sample. -/
def runServerLimiter (maxCalls : ℕ) (reqs : List (ℚ × ℚ)) :
    Option LimiterState :=
  reqs.foldl
    (fun acc r => acc.bind (fun s => server_wait_if_needed maxCalls s r.1 r.2))
    (some ⟨0, []⟩)

/-- JSON values, as json.loads returns them (numbers restricted to
integers, which is all the classification flow relies on). -/
inductive Json where
  | jnull
  | jbool (b : Bool)
  | jnum (n : Int)
  | jstr (s : List Char)
  | jarr (elems : List Json)
  | jobj (fields : List (List Char × Json))

/-- JSON whitespace. -/
def isWsChar (c : Char) : Bool :=
  c = ' ' || c = '\t' || c = '\n' || c = '\r'

/-- Skip leading JSON whitespace. -/
def skipWs : List Char → List Char
  | [] => []
  | c :: cs => if isWsChar c then skipWs cs else c :: cs

/-- Meaning of a string escape character. -/
def escChar (c : Char) : Option Char :=
  if c = '"' then some '"'
  else if c = '\\' then some '\\'
  else if c = '/' then some '/'
  else if c = 'n' then some '\n'
  else if c = 't' then some '\t'
  else if c = 'r' then some '\r'
  else if c = 'b' then some (Char.ofNat 8)
  else if c = 'f' then some (Char.ofNat 12)
  else none

/-- Parse the body of a string literal after the opening quote; return
the decoded characters and the input after the closing quote. -/
def parseStrBody : List Char → Option (List Char × List Char)
  | [] => none
  | c :: cs =>
    if c = '"' then some ([], cs)
    else if c = '\\' then
      match cs with
      | [] => none
      | e :: cs' =>
        match escChar e with
        | none => none
        | some ch => (parseStrBody cs').map (fun r => (ch :: r.1, r.2))
    else (parseStrBody cs).map (fun r => (c :: r.1, r.2))

/-- Take a maximal run of decimal digits. -/
def takeDigits : List Char → List Char × List Char
  | [] => ([], [])
  | c :: cs =>
    if c.isDigit then
      let r := takeDigits cs
      (c :: r.1, r.2)
    else ([], c :: cs)

/-- Value of a digit run. -/
def digitsToNat (ds : List Char) : Nat :=
  ds.foldl (fun acc c => acc * 10 + (c.toNat - Char.toNat '0')) 0

/-- Parse an integer literal (optional minus sign, nonempty digits). -/
def parseNum (cs : List Char) : Option (Int × List Char) :=
  match cs with
  | '-' :: rest =>
    let r := takeDigits rest
    if r.1.isEmpty then none else some (-(digitsToNat r.1 : Int), r.2)
  | _ =>
    let r := takeDigits cs
    if r.1.isEmpty then none else some ((digitsToNat r.1 : Int), r.2)

/-- Consume an expected literal. -/
def expectLit (lit cs : List Char) : Option (List Char) :=
  if startsWithSeq lit cs then some (cs.drop lit.length) else none

mutual

/-- Parse one JSON value (fuel-bounded recursive-descent model of the
json.loads grammar). -/
def parseVal : Nat → List Char → Option (Json × List Char)
  | 0, _ => none
  | fuel + 1, cs =>
    match skipWs cs with
    | [] => none
    | c :: rest =>
      if c = '"' then
        (parseStrBody rest).map (fun r => (Json.jstr r.1, r.2))
      else if c = '{' then
        (parseObjFields fuel true rest).map (fun r => (Json.jobj r.1, r.2))
      else if c = '[' then
        (parseArrElems fuel true rest).map (fun r => (Json.jarr r.1, r.2))
      else if c = 't' then
        (expectLit "rue".toList rest).map (fun r => (Json.jbool true, r))
      else if c = 'f' then
        (expectLit "alse".toList rest).map (fun r => (Json.jbool false, r))
      else if c = 'n' then
        (expectLit "ull".toList rest).map (fun r => (Json.jnull, r))
      else if c = '-' || c.isDigit then
        (parseNum (c :: rest)).map (fun r => (Json.jnum r.1, r.2))
      else none

/-- Parse the fields of an object after the opening brace; `first`
distinguishes the entry position (where a closing brace is allowed)
from the position after a comma (where a field is required). -/
def parseObjFields : Nat → Bool → List Char →
    Option (List (List Char × Json) × List Char)
  | 0, _, _ => none
  | fuel + 1, first, cs =>
    match skipWs cs with
    | [] => none
    | c :: rest =>
      if c = '}' then
        if first then some ([], rest) else none
      else if c = '"' then
        match parseStrBody rest with
        | none => none
        | some (key, rest1) =>
          match skipWs rest1 with
          | ':' :: rest2 =>
            match parseVal fuel rest2 with
            | none => none
            | some (v, rest3) =>
              match skipWs rest3 with
              | ',' :: rest4 =>
                (parseObjFields fuel false rest4).map
                  (fun r => ((key, v) :: r.1, r.2))
              | '}' :: rest4 => some ([(key, v)], rest4)
              | _ => none
          | _ => none
      else none

/-- Parse the elements of an array after the opening bracket. -/
def parseArrElems : Nat → Bool → List Char →
    Option (List Json × List Char)
  | 0, _, _ => none
  | fuel + 1, first, cs =>
    match skipWs cs with
    | [] => none
    | c :: rest =>
      if c = ']' then
        if first then some ([], rest) else none
      else
        match parseVal fuel (c :: rest) with
        | none => none
        | some (v, rest1) =>
          match skipWs rest1 with
          | ',' :: rest2 =>
            (parseArrElems fuel false rest2).map (fun r => (v :: r.1, r.2))
          | ']' :: rest2 => some ([v], rest2)
          | _ => none

end

/-- Model of json.loads: parse one value and require only whitespace
after it. -/
def jsonParse (cs : List Char) : Option Json :=
  match parseVal (cs.length + 1) cs with
  | some (v, rest) => if skipWs rest = [] then some v else none
  | none => none

/-- Does a parsed object carry a given top-level key? -/
def hasKey (j : Json) (k : List Char) : Bool :=
  match j with
  | Json.jobj fields => fields.any (fun f => f.1 = k)
  | _ => false

/-- Drop everything before the first opening brace. -/
def dropToBrace (cs : List Char) : List Char :=
  cs.dropWhile (fun c => c ≠ '{')

/-- Drop everything after the last closing brace. -/
def keepToLastClose (cs : List Char) : List Char :=
  (cs.reverse.dropWhile (fun c => c ≠ '}')).reverse

/-- Model of re.search applied to the DOTALL greedy pattern of
data_classification.py line 160: the match, when it exists, spans the
first opening brace through the last closing brace. -/
def braceSub (cs : List Char) : Option (List Char) :=
  match keepToLastClose (dropToBrace cs) with
  | [] => none
  | c :: rest => some (c :: rest)

/-- The two ValueError outcomes of classify_job_post's parsing
(data_classification.py lines 167 and 170). -/
inductive ClassifyError where
  | noJsonFound
  | invalidJson
deriving DecidableEq

/-- Embedding of the response-parsing tail of classify_job_post
(data_classification.py lines 151-170): try json.loads on the raw
output; on failure extract the brace-to-brace substring and try
json.loads on it; whatever parses is returned as-is, with no check of
its shape. -/
def classify_parse (raw : List Char) : Except ClassifyError Json :=
  match jsonParse raw with
  | some d => Except.ok d
  | none =>
    match braceSub raw with
    | some s =>
      match jsonParse s with
      | some d => Except.ok d
      | none => Except.error ClassifyError.invalidJson
    | none => Except.error ClassifyError.noJsonFound

/-- A parsed HTML node: an element with tag, attributes and children,
or a text node. -/
inductive HNode where
  | el (tag : String) (attrs : List (String × String)) (children : List HNode)
  | txt (s : String)

mutual

/-- All descendants of a node (excluding the node), in document
order. -/
def descendantsOf : HNode → List HNode
  | HNode.txt _ => []
  | HNode.el _ _ cs => descendantsList cs

/-- All nodes of a forest, in document order. -/
def descendantsList : List HNode → List HNode
  | [] => []
  | n :: ns => n :: (descendantsOf n ++ descendantsList ns)

end

mutual

/-- lxml text_content(): all text of a node, concatenated. -/
def textContentOf : HNode → String
  | HNode.txt s => s
  | HNode.el _ _ cs => textContentList cs

/-- Concatenated text of a forest. -/
def textContentList : List HNode → String
  | [] => ""
  | n :: ns => textContentOf n ++ textContentList ns

end

/-- Attribute lookup on an element. -/
def attrOf (n : HNode) (key : String) : Option String :=
  match n with
  | HNode.el _ attrs _ => (attrs.find? (fun p => p.1 == key)).map (fun p => p.2)
  | HNode.txt _ => none

/-- Tag test. -/
def tagIs (n : HNode) (t : String) : Bool :=
  match n with
  | HNode.el tg _ _ => tg == t
  | HNode.txt _ => false

/-- XPath contains(@class, s): raw substring test on the class
attribute. -/
def classContainsSub (n : HNode) (s : String) : Bool :=
  match attrOf n "class" with
  | some v => containsSeq s.toList v.toList
  | none => false

/-- Split a character list at spaces (the behavior of str.split-like
tokenization on the class attribute). -/
def splitOnSpaceAux : List Char → List Char → List (List Char)
  | [], acc => [acc.reverse]
  | c :: cs, acc =>
    if c = ' ' then acc.reverse :: splitOnSpaceAux cs []
    else splitOnSpaceAux cs (c :: acc)

/-- The whitespace-separated class tokens of an element. -/
def classTokens (n : HNode) : List String :=
  match attrOf n "class" with
  | some v => (splitOnSpaceAux v.toList []).map String.mk
  | none => []

/-- cssselect "tag.c1.c2...": tag match plus every class token. -/
def cssMatch (n : HNode) (tag : String) (classes : List String) : Bool :=
  tagIs n tag && classes.all (fun c => (classTokens n).contains c)

/-- XPath child text() nodes of an element. -/
def childTextNodes (n : HNode) : List String :=
  match n with
  | HNode.el _ _ cs =>
    cs.filterMap (fun c =>
      match c with
      | HNode.txt s => some s
      | HNode.el _ _ _ => none)
  | HNode.txt _ => []

/-- Element children with a given tag. -/
def childElemsTag (n : HNode) (t : String) : List HNode :=
  match n with
  | HNode.el _ _ cs => cs.filter (fun c => tagIs c t)
  | HNode.txt _ => []

/-- Python str.strip() whitespace. -/
def isStripChar (c : Char) : Bool :=
  c = ' ' || c = '\t' || c = '\n' || c = '\r' ||
  c = Char.ofNat 11 || c = Char.ofNat 12

/-- Python str.strip(). -/
def pyStrip (s : String) : String :=
  String.mk (((s.toList.dropWhile isStripChar).reverse.dropWhile
    isStripChar).reverse)

/-- str.replace applied to remove every pipe character
(scrap_jobData.py line 113). -/
def removeBars (s : String) : String :=
  String.mk (s.toList.filter (fun c => c ≠ '|'))

/-- The whole document: the root and its descendants (the `//` axis). -/
def allNodes (tree : HNode) : List HNode :=
  tree :: descendantsOf tree

/-- All descendant text nodes of a node, in order (the `.//text()`
query). -/
def descTextNodes (n : HNode) : List String :=
  (descendantsOf n).filterMap (fun c =>
    match c with
    | HNode.txt s => some s
    | HNode.el _ _ _ => none)

/-- Over every element of the document, match a node against `pred`
and, when it matches, extract from its following siblings. -/
def siblingScan (pred : HNode → Bool) (extract : List HNode → List String) :
    List HNode → List String
  | [] => []
  | n :: rest =>
    (if pred n then extract rest else []) ++ siblingScan pred extract rest

/-- Apply a sibling scan inside every element of the document. -/
def docSiblingScan (tree : HNode) (pred : HNode → Bool)
    (extract : List HNode → List String) : List String :=
  (allNodes tree).flatMap (fun n =>
    match n with
    | HNode.el _ _ cs => siblingScan pred extract cs
    | HNode.txt _ => [])

/-- tree.xpath with div[@data-test="JobListing"], first hit
(scrap_jobData.py lines 72-77). -/
def findJobListing (tree : HNode) : Option HNode :=
  ((allNodes tree).filter (fun n =>
    tagIs n "div" && attrOf n "data-test" == some "JobListing")).head?

/-- Company-name texts (line 80): descendant spans whose class
contains the marker, their child texts. -/
def companyTexts (jd : HNode) : List String :=
  ((descendantsOf jd).filter (fun n =>
    tagIs n "span" && classContainsSub n "text-sm font-semibold text-black")).flatMap
    childTextNodes

/-- Hiring-status texts (line 86), stored as a whole list. -/
def hiringStatTexts (jd : HNode) : List String :=
  ((descendantsOf jd).filter (fun n =>
    tagIs n "div" &&
      classContainsSub n "flex items-center text-sm font-medium text-pop-green")).flatMap
    childTextNodes

/-- Slogan texts (line 90), stored as a whole list. -/
def sloganTexts (jd : HNode) : List String :=
  ((descendantsOf jd).filter (fun n =>
    tagIs n "div" && classContainsSub n "text-sm font-light text-neutral-500")).flatMap
    childTextNodes

/-- Position texts (line 94). -/
def positionTexts (jd : HNode) : List String :=
  ((descendantsOf jd).filter (fun n =>
    tagIs n "h1" && classContainsSub n "inline text-xl font-semibold text-black")).flatMap
    childTextNodes

/-- The job-details ul (line 98), first hit. -/
def ulOf (jd : HNode) : Option HNode :=
  ((descendantsOf jd).filter (fun n =>
    tagIs n "ul" && classContainsSub n "block text-md text-black md:flex")).head?

/-- Texts of the i-th li child of the ul (`./li[i+1]/text()`). -/
def liTexts (ul : HNode) (i : Nat) : List String :=
  match (childElemsTag ul "li")[i]? with
  | some li => childTextNodes li
  | none => []

/-- Location texts (line 107): anchors under the second li. -/
def locationTexts (ul : HNode) : List String :=
  match (childElemsTag ul "li")[1]? with
  | some li =>
    ((descendantsOf li).filter (fun n =>
      tagIs n "a" && classContainsSub n "font-normal text-black text-md")).flatMap
      childTextNodes
  | none => []

/-- Experience value (lines 111-115): third li text with pipes removed,
stripped; None when absent. -/
def experienceVal (ul : HNode) : Option String :=
  (liTexts ul 2).head?.map (fun s => pyStrip (removeBars s))

/-- The span label matcher of the visa/remote/relocation/skills blocks:
class contains "text-md font-semibold" and a child text equals the
label. -/
def labelSpan (label : String) (n : HNode) : Bool :=
  tagIs n "span" && classContainsSub n "text-md font-semibold" &&
    (childTextNodes n).contains label

/-- Visa texts (line 118): first following-sibling p of the label span,
its span children's texts. -/
def visaTexts (tree : HNode) : List String :=
  docSiblingScan tree (labelSpan "Visa Sponsorship") (fun sibs =>
    match (sibs.filter (fun m => tagIs m "p")).head? with
    | some p => (childElemsTag p "span").flatMap childTextNodes
    | none => [])

/-- Remote-work-policy texts (line 122): first following-sibling p of
the label span, its own texts. -/
def remoteTexts (tree : HNode) : List String :=
  docSiblingScan tree (labelSpan "Remote Work Policy") (fun sibs =>
    match (sibs.filter (fun m => tagIs m "p")).head? with
    | some p => childTextNodes p
    | none => [])

/-- Relocation texts (line 126): following-sibling spans whose class is
exactly "flex items-center". -/
def relocationTexts (tree : HNode) : List String :=
  docSiblingScan tree (labelSpan "Relocation") (fun sibs =>
    (sibs.filter (fun m =>
      tagIs m "span" && attrOf m "class" == some "flex items-center")).flatMap
      childTextNodes)

/-- Skills texts (line 130): following-sibling div whose class is
exactly "flex flex-wrap", its div children's texts. -/
def skillsTexts (tree : HNode) : List String :=
  docSiblingScan tree (labelSpan "Skills") (fun sibs =>
    (sibs.filter (fun m =>
      tagIs m "div" && attrOf m "class" == some "flex flex-wrap")).flatMap
      (fun dv => (childElemsTag dv "div").flatMap childTextNodes))

/-- The skills list (line 131): stripped, empty entries dropped. -/
def skillsOf (tree : HNode) : List String :=
  ((skillsTexts tree).map pyStrip).filter (fun s => s ≠ "")

/-- Job-description value (lines 134-138): the div with
id="job-description", all its descendant texts joined with spaces and
stripped; None when the div is absent. -/
def jobDescriptionVal (tree : HNode) : Option String :=
  match ((allNodes tree).filter (fun n =>
    tagIs n "div" && attrOf n "id" == some "job-description")).head? with
  | some dv => some (pyStrip (String.intercalate " " (descTextNodes dv)))
  | none => none

/-- Founder value (lines 215-218). -/
def founderVal (tree : HNode) : Option String :=
  (((descendantsOf tree).filter (fun n =>
    cssMatch n "span" ["text-lg", "font-semibold", "text-black"])).head?).map
    (fun n => pyStrip (textContentOf n))

/-- A value of the job_data dict: a Python string-or-None, or a list of
strings. -/
inductive FVal where
  | vstr (s : Option String)
  | vlist (ss : List String)

/-- The job_data dict: insertion-ordered, keys may be None (an img
without an alt attribute yields a None key). -/
abbrev JobDict := List (Option String × FVal)

/-- Python `key in dict`. -/
def dictHas (d : JobDict) (k : Option String) : Bool :=
  d.any (fun p => p.1 = k)

/-- Python `dict[key]` read. -/
def dictGet (d : JobDict) (k : Option String) : Option FVal :=
  (d.find? (fun p => p.1 = k)).map (fun p => p.2)

/-- Python `dict[key] = v`: overwrite in place or append a fresh
binding. -/
def dictSet (d : JobDict) (k : Option String) (v : FVal) : JobDict :=
  if dictHas d k then d.map (fun p => if p.1 = k then (p.1, v) else p)
  else d ++ [(k, v)]

/-- The grid append of lines 162-164: create the list when the key is
new, then `job_data[key].append(value)`; appending to a non-list value
raises AttributeError, modelled as none (the outer except turns it
into a None record). -/
def dictAppendAt (d : JobDict) (k : Option String) (v : String) :
    Option JobDict :=
  if dictHas d k then
    match dictGet d k with
    | some (FVal.vlist ss) => some (dictSet d k (FVal.vlist (ss ++ [v])))
    | _ => none
  else some (dictSet d k (FVal.vlist [v]))

/-- Class tokens of the outer company-grid container (line 141). -/
def gridDivAClasses : List String :=
  ["grid", "grid-cols-2", "items-center", "gap-2", "border-t",
   "border-gray-300", "p-4", "xs:flex", "xs:flex-wrap"]

/-- Class tokens of the inner grid cell (line 145). -/
def gridDivBClasses : List String :=
  ["flex", "items-center", "justify-center", "rounded", "bg-gray-200",
   "px-2", "font-medium"]

/-- Class tokens of the value div inside a grid cell (lines 154-157). -/
def gridInnerClasses : List String :=
  ["flex", "h-[20px]", "items-center", "justify-center", "space-x-1",
   "whitespace-nowrap", "pl-1", "text-[10px]", "font-medium",
   "leading-relaxed", "text-accent-persian-600"]

/-- One grid cell (lines 148-164): skip cells without an img; the key
is the img's alt attribute, the value the stripped text of the first
inner value div. -/
def processDivB (d : JobDict) (divB : HNode) : Option JobDict :=
  match ((descendantsOf divB).filter (fun n => tagIs n "img")).head? with
  | none => some d
  | some img =>
    match ((descendantsOf divB).filter (fun n =>
      cssMatch n "div" gridInnerClasses)).head? with
    | none => some d
    | some inner =>
      dictAppendAt d (attrOf img "alt") (pyStrip (textContentOf inner))

/-- Sequence a fallible step over a node list. -/
def foldOptList (f : JobDict → HNode → Option JobDict) (d : JobDict) :
    List HNode → Option JobDict
  | [] => some d
  | n :: rest =>
    match f d n with
    | none => none
    | some d' => foldOptList f d' rest

/-- The company-information grid section (lines 140-164). -/
def processGrid (tree : HNode) (d : JobDict) : Option JobDict :=
  foldOptList
    (fun d' divA =>
      foldOptList processDivB d'
        ((descendantsOf divA).filter (fun n => cssMatch n "div" gridDivBClasses)))
    d
    ((descendantsOf tree).filter (fun n => cssMatch n "div" gridDivAClasses))

/-- The additional-company-data section (lines 166-179). -/
def additionalDataOf (tree : HNode) : List String :=
  match ((descendantsOf tree).filter (fun n =>
    cssMatch n "div"
      ["flex", "w-full", "space-x-2", "text-[10px]",
       "text-accent-persian-600", "border-t", "border-gray-300", "p-4",
       "pb-4"])).head? with
  | none => []
  | some divC =>
    match ((descendantsOf divC).filter (fun n => tagIs n "ul")).head? with
    | none => []
    | some ul =>
      ((descendantsOf ul).filter (fun n =>
        cssMatch n "div" ["line-clamp-1"])).map
        (fun n => pyStrip (textContentOf n))

/-- The perks section (lines 182-194). -/
def perksOf (tree : HNode) : List String :=
  ((descendantsOf tree).filter (fun n =>
    cssMatch n "div"
      ["grid", "w-full", "grid-cols-1", "gap-4", "sm:grid-cols-3",
       "max-xs:grid-cols-2"])).flatMap
    (fun divA =>
      ((descendantsOf divA).filter (fun n =>
        cssMatch n "div" ["mt-4", "flex", "items-start"])).filterMap
        (fun divB =>
          (((descendantsOf divB).filter (fun n =>
            cssMatch n "div" ["h-full", "pl-2"])).head?).map
            (fun t => pyStrip (textContentOf t))))

/-- The key/value pairs of the funding section (lines 196-210). -/
def fundingPairs (tree : HNode) : List (String × String) :=
  match ((descendantsOf tree).filter (fun n =>
    cssMatch n "div"
      ["mt-4", "flex", "rounded-lg", "bg-brand-burgandy", "p-4",
       "text-center"])).head? with
  | none => []
  | some divA =>
    ((descendantsOf divA).filter (fun n =>
      cssMatch n "div" ["w-1/2", "border-r", "border-white"])).filterMap
      (fun divB =>
        match ((descendantsOf divB).filter (fun n =>
          cssMatch n "div" ["text-xs", "text-gray-400"])).head?,
          ((descendantsOf divB).filter (fun n =>
            cssMatch n "div" ["text-m", "font-semibold", "text-white"])).head? with
        | some ke, some ve =>
          some (pyStrip (textContentOf ke), pyStrip (textContentOf ve))
        | _, _ => none)

/-- Apply the funding assignments in order (line 210). -/
def applyFunding (tree : HNode) (d : JobDict) : JobDict :=
  (fundingPairs tree).foldl
    (fun d' p => dictSet d' (some p.1) (FVal.vstr (some p.2))) d

/-- The job_data dict as built before the company-grid section
(scrap_jobData.py lines 79-138), given the JobListing div. -/
def preGridDict (tree jd : HNode) : JobDict :=
  let d : JobDict := []
  let d := dictSet d (some "company_name")
    (FVal.vstr ((companyTexts jd).head?.map pyStrip))
  let d := dictSet d (some "hiring_stat") (FVal.vlist (hiringStatTexts jd))
  let d := dictSet d (some "slogan") (FVal.vlist (sloganTexts jd))
  let d := dictSet d (some "position")
    (FVal.vstr ((positionTexts jd).head?.map pyStrip))
  let d :=
    match ulOf jd with
    | some ul =>
      let d := dictSet d (some "price")
        (FVal.vstr ((liTexts ul 0).head?.map pyStrip))
      let d := dictSet d (some "location")
        (FVal.vstr ((locationTexts ul).head?.map pyStrip))
      dictSet d (some "experience_required") (FVal.vstr (experienceVal ul))
    | none => d
  let d := dictSet d (some "visa")
    (FVal.vstr ((visaTexts tree).head?.map pyStrip))
  let d := dictSet d (some "remote_work_pol")
    (FVal.vstr ((remoteTexts tree).head?.map pyStrip))
  let d := dictSet d (some "relocation")
    (FVal.vstr ((relocationTexts tree).head?.map pyStrip))
  let d := dictSet d (some "skills") (FVal.vlist (skillsOf tree))
  dictSet d (some "job_description") (FVal.vstr (jobDescriptionVal tree))

/-- Embedding of extract_job_data (scrap_jobData.py lines 63-224): find
the JobListing anchor (None when missing), build the field dict, run
the fallible grid section (an AttributeError there is caught by the
enclosing except and yields None), then the remaining sections. -/
def extract_job_data (tree : HNode) : Option JobDict :=
  match findJobListing tree with
  | none => none
  | some jd =>
    match processGrid tree (preGridDict tree jd) with
    | none => none
    | some d =>
      let d := dictSet d (some "additional_data")
        (FVal.vlist (additionalDataOf tree))
      let d := dictSet d (some "perks") (FVal.vlist (perksOf tree))
      let d := applyFunding tree d
      some (dictSet d (some "founder") (FVal.vstr (founderVal tree)))

/-- The mark a pending document receives, decided by the unit of
work's outcome on its key. -/
def markByOutcome (uow : String → Option String) (d : UrlDoc) : UrlDoc :=
  match uow d.url with
  | some _ => markScraped d
  | none => markFailedDoc d

/-- The evolution of the urls collection during the fold of a stage
run. -/
def foldUpdate (uow : String → Option String) (P : List UrlDoc)
    (urls : List UrlDoc) : List UrlDoc :=
  P.foldl (fun u d => updateDoc d.url (markByOutcome uow) u) urls

/-- A document whose JobListing container holds a company-information
grid cell whose img is labelled alt="company_name": the grid append
then hits the scalar company_name field. -/
def exGridCollisionTree : HNode :=
  HNode.el "div" [("data-test", "JobListing")]
    [HNode.el "div"
      [("class", "grid grid-cols-2 items-center gap-2 border-t border-gray-300 p-4 xs:flex xs:flex-wrap")]
      [HNode.el "div"
        [("class", "flex items-center justify-center rounded bg-gray-200 px-2 font-medium")]
        [HNode.el "img" [("alt", "company_name")] [],
         HNode.el "div"
           [("class", "flex h-[20px] items-center justify-center space-x-1 whitespace-nowrap pl-1 text-[10px] font-medium leading-relaxed text-accent-persian-600")]
           [HNode.txt "42"]]]]

/-- A plain document with an empty JobListing container. -/
def plainJobTree : HNode :=
  HNode.el "div" [("data-test", "JobListing")] []

/-- The tail of extract_job_data after the grid section: the
additional-data, perks, funding and founder assignments
(scrap_jobData.py lines 166-220). -/
def postGridDict (tree : HNode) (g : JobDict) : JobDict :=
  dictSet
    (applyFunding tree
      (dictSet
        (dictSet g (some "additional_data")
          (FVal.vlist (additionalDataOf tree)))
        (some "perks") (FVal.vlist (perksOf tree))))
    (some "founder") (FVal.vstr (founderVal tree))

/- ========================== Theorems =========================== -/

theorem build_urls_cons (j : JobType) (jobs : List JobType)
    (states : List LocEntry) :
    build_wellfound_urls (j :: jobs) states
      = (validNames states).map (mkWellfoundUrl j.role)
          ++ build_wellfound_urls jobs states := by
  have h : ∀ ls : List LocEntry,
      ls.filterMap (fun loc =>
        match loc.name with
        | some n => if n = "" then none else some (mkWellfoundUrl j.role n)
        | none => none)
        = (validNames ls).map (mkWellfoundUrl j.role) := by
    intro ls
    induction ls with
    | nil => rfl
    | cons l rest ih =>
      cases l with
      | mk nm =>
        cases nm with
        | none => simpa [validNames, List.filterMap_cons] using ih
        | some n =>
          by_cases hn : n = "" <;>
            simp [validNames, List.filterMap_cons, hn] at ih ⊢ <;>
            simpa [validNames] using ih
  simp [build_wellfound_urls, List.flatMap_cons, h]

theorem build_urls_length (jobs : List JobType) (states : List LocEntry) :
    (build_wellfound_urls jobs states).length
      = jobs.length * (validNames states).length := by
  induction jobs with
  | nil => simp [build_wellfound_urls]
  | cons j rest ih =>
    simp [build_urls_cons, ih, Nat.succ_mul, Nat.add_comm]

theorem build_urls_getElem (jobs : List JobType) (states : List LocEntry)
    (i k : Nat) (hi : i < jobs.length)
    (hk : k < (validNames states).length) :
    (build_wellfound_urls jobs states)[i * (validNames states).length + k]?
      = some (mkWellfoundUrl (jobs[i].role) ((validNames states)[k])) := by
  induction jobs generalizing i with
  | nil => simp at hi
  | cons j rest ih =>
    cases i with
    | zero =>
      rw [build_urls_cons]
      simp [List.getElem?_append, hk, List.getElem?_eq_getElem]
    | succ m =>
      rw [build_urls_cons]
      rw [List.getElem?_append_right]
      · have harith : (m + 1) * (validNames states).length + k
            - ((validNames states).map (mkWellfoundUrl j.role)).length
            = m * (validNames states).length + k := by
          simp [Nat.succ_mul]
          omega
        rw [harith]
        exact ih m (by simpa using hi)
      · simp [Nat.succ_mul]
        omega

/-- C10: build_wellfound_urls emits, in jobs-major then locations
order, exactly one URL of the form base/role/name per job and per
location whose name is present and non-empty (locations without a name
are skipped), and the persisted artifact wraps every URL with value
false. -/
theorem c10_url_generation_shape (jobs : List JobType)
    (states : List LocEntry) (i k : Nat) (hi : i < jobs.length)
    (hk : k < (validNames states).length) :
    (build_wellfound_urls jobs states).length
        = jobs.length * (validNames states).length
    ∧ (build_wellfound_urls jobs states)[i * (validNames states).length + k]?
        = some (mkWellfoundUrl (jobs[i].role) ((validNames states)[k]))
    ∧ (wrapUrls (build_wellfound_urls jobs states)).map (fun e => e.url)
        = build_wellfound_urls jobs states
    ∧ ∀ e ∈ wrapUrls (build_wellfound_urls jobs states), e.value = false := by
  refine ⟨build_urls_length jobs states,
    build_urls_getElem jobs states i k hi hk, ?_, ?_⟩
  · simp [wrapUrls, List.map_map, Function.comp_def]
  · intro e he
    simp [wrapUrls] at he
    obtain ⟨u, _, rfl⟩ := he
    rfl

/-- C10 witness: one job and two locations, one of them nameless. -/
theorem c10_url_generation_shape_witness :
    0 < ([⟨"engineer"⟩] : List JobType).length
    ∧ 0 < (validNames [⟨some "london"⟩, ⟨none⟩]).length
    ∧ ((build_wellfound_urls [⟨"engineer"⟩] [⟨some "london"⟩, ⟨none⟩]).length
          = 1 * (validNames [⟨some "london"⟩, ⟨none⟩]).length
        ∧ (build_wellfound_urls [⟨"engineer"⟩]
            [⟨some "london"⟩, ⟨none⟩])[0 * (validNames [⟨some "london"⟩, ⟨none⟩]).length + 0]?
          = some (mkWellfoundUrl (([⟨"engineer"⟩] : List JobType)[0].role)
              ((validNames [⟨some "london"⟩, ⟨none⟩])[0]))
        ∧ (wrapUrls (build_wellfound_urls [⟨"engineer"⟩]
              [⟨some "london"⟩, ⟨none⟩])).map (fun e => e.url)
          = build_wellfound_urls [⟨"engineer"⟩] [⟨some "london"⟩, ⟨none⟩]
        ∧ ∀ e ∈ wrapUrls (build_wellfound_urls [⟨"engineer"⟩]
              [⟨some "london"⟩, ⟨none⟩]), e.value = false) :=
  ⟨by decide, by decide,
    c10_url_generation_shape [⟨"engineer"⟩] [⟨some "london"⟩, ⟨none⟩] 0 0
      (by decide) (by decide)⟩

theorem check_environment_false_iff (env : String → Option String) :
    check_environment env = false
      ↔ (envFalsy (env "MONGO_URI") = true
          ∨ envFalsy (env "GROQ_API_KEY") = true) := by
  cases h1 : envFalsy (env "MONGO_URI") <;>
    cases h2 : envFalsy (env "GROQ_API_KEY") <;>
      simp [check_environment, requiredVars, List.filter, h1, h2]

/-- C9: with a required environment variable unset run_pipeline fails
before connecting to storage or starting any stage; the environment
check fails exactly when MONGO_URI or GROQ_API_KEY is falsy; and a
run_all with environment and connection fine starts the stages in
order only up to and including the first failing one, reporting
success iff every stage succeeded. -/
theorem c9_fatal_config_abort (env : String → Option String)
    (connectOk : Bool) (stageOk : String → Bool) :
    (∀ step, check_environment env = false →
        run_pipeline env connectOk stageOk step = (false, []))
    ∧ (check_environment env = false
        ↔ (envFalsy (env "MONGO_URI") = true
            ∨ envFalsy (env "GROQ_API_KEY") = true))
    ∧ (check_environment env = true → connectOk = true →
        run_pipeline env connectOk stageOk "all"
          = (stageOrder.all stageOk,
             PipeEvent.connect
               :: (stagesUpToFailure stageOk stageOrder).map PipeEvent.stage)) := by
  refine ⟨?_, check_environment_false_iff env, ?_⟩
  · intro step h
    simp [run_pipeline, h]
  · intro henv hc
    subst hc
    cases h1 : stageOk "generate_urls" <;>
      cases h2 : stageOk "scrape_urls" <;>
        cases h3 : stageOk "scrape_jobs" <;>
          cases h4 : stageOk "classify" <;>
            simp [run_pipeline, henv, runStages, stageOrder,
              stagesUpToFailure, h1, h2, h3, h4]

/-- C9 witness: environment fine, connection fine, second stage
failing: the run dispatches only the first two stages and fails. -/
theorem c9_fatal_config_abort_witness :
    check_environment (fun _ => some "set") = true
    ∧ run_pipeline (fun _ => some "set") true
        (fun s => decide (s ≠ "scrape_urls")) "all"
      = (false,
         [PipeEvent.connect, PipeEvent.stage "generate_urls",
          PipeEvent.stage "scrape_urls"]) := by
  refine ⟨by decide, ?_⟩
  have h := (c9_fatal_config_abort (fun _ => some "set") true
    (fun s => decide (s ≠ "scrape_urls"))).2.2 (by decide) rfl
  rw [h]
  rfl

/-- C3: a unit of work whose fetch fails transiently on every attempt
is attempted exactly 3 times and then gives up, both for
scrape_job_data and for the per-page loop of scrape_pages_for_url; and
a terminal body (404 marker, or zero-results marker) ends the attempt
loop right after its first fetch, consuming no further attempts. -/
theorem c3_retry_bound_and_short_circuit {α β : Type}
    (fetch : Nat → Option α) (extract : α → Option β)
    (fetchR : Nat → Option (List Char))
    (extractUrls : List Char → Option (List (List Char)))
    (hfail : ∀ a, a ∈ [1, 2, 3] → fetch a = none)
    (hRfail : ∀ a, a ∈ [1, 2, 3] → fetchR a = none) :
    scrape_job_data fetch extract = (none, 3)
    ∧ pageAttempts fetchR extractUrls = (PageOutcome.giveUp, 3)
    ∧ (∀ (f : Nat → Option (List Char)) (body : List Char),
        f 1 = some body → containsSeq marker404 body = true →
        pageAttempts f extractUrls = (PageOutcome.found404, 1))
    ∧ (∀ (f : Nat → Option (List Char)) (body : List Char),
        f 1 = some body → containsSeq marker404 body = false →
        containsSeq markerZero body = true →
        pageAttempts f extractUrls = (PageOutcome.zeroResults, 1)) := by
  have h1 := hfail 1 (by simp)
  have h2 := hfail 2 (by simp)
  have h3 := hfail 3 (by simp)
  have g1 := hRfail 1 (by simp)
  have g2 := hRfail 2 (by simp)
  have g3 := hRfail 3 (by simp)
  refine ⟨?_, ?_, ?_, ?_⟩
  · simp [scrape_job_data, scrapeAttemptsFrom, h1, h2, h3]
  · simp [pageAttempts, pageAttemptsFrom, g1, g2, g3]
  · intro f body hf h404
    simp [pageAttempts, pageAttemptsFrom, hf, h404]
  · intro f body hf h404 hzero
    simp [pageAttempts, pageAttemptsFrom, hf, h404, hzero]

/-- C3 witness: fetches that always fail, and fetches that return
terminal bodies on the first attempt. -/
theorem c3_retry_bound_and_short_circuit_witness :
    (∀ a, a ∈ [1, 2, 3] → (fun _ => (none : Option (List Char))) a = none)
    ∧ (scrape_job_data (fun _ => (none : Option (List Char)))
          (fun (_ : List Char) => (none : Option (List Char))) = (none, 3)
        ∧ pageAttempts (fun _ => none) (fun _ => some []) = (PageOutcome.giveUp, 3)
        ∧ pageAttempts (fun _ => some marker404) (fun _ => some [])
            = (PageOutcome.found404, 1)
        ∧ pageAttempts (fun _ => some markerZero) (fun _ => some [])
            = (PageOutcome.zeroResults, 1)) := by
  have h := c3_retry_bound_and_short_circuit
    (fun _ => (none : Option (List Char)))
    (fun (_ : List Char) => (none : Option (List Char)))
    (fun _ => none) (fun _ => some [])
    (fun a _ => rfl) (fun a _ => rfl)
  refine ⟨fun a _ => rfl, h.1, h.2.1, ?_, ?_⟩
  · exact h.2.2.1 (fun _ => some marker404) marker404 rfl (by decide)
  · exact h.2.2.2 (fun _ => some markerZero) markerZero rfl (by decide) (by decide)

theorem runUrlStage_all_done (ts : List TargetEntry) :
    ∀ e ∈ (runUrlStage ts).1, e.value = true := by
  induction ts with
  | nil => simp [runUrlStage]
  | cons e rest ih =>
    intro x hx
    by_cases hv : e.value <;> simp [runUrlStage, hv] at hx <;>
      rcases hx with hx | hx
    · simpa [hx] using hv
    · exact ih x hx
    · simp [hx]
    · exact ih x hx

theorem runUrlStage_urls (ts : List TargetEntry) :
    (runUrlStage ts).1.map (fun e => e.url) = ts.map (fun e => e.url) := by
  induction ts with
  | nil => rfl
  | cons e rest ih =>
    by_cases hv : e.value <;> simp [runUrlStage, hv, ih]

theorem runUrlStage_attempted (ts : List TargetEntry) :
    ∀ e ∈ ts, e.value = false → e.url ∈ (runUrlStage ts).2 := by
  induction ts with
  | nil => simp
  | cons e rest ih =>
    intro x hx hxv
    rw [List.mem_cons] at hx
    rcases hx with rfl | hx
    · simp [runUrlStage, hxv]
    · by_cases hv : e.value <;> simp [runUrlStage, hv]
      · exact ih x hx hxv
      · exact Or.inr (ih x hx hxv)

theorem runUrlStage_idempotent (ts : List TargetEntry) :
    runUrlStage (runUrlStage ts).1 = ((runUrlStage ts).1, []) := by
  induction ts with
  | nil => rfl
  | cons e rest ih =>
    by_cases hv : e.value <;> simp [runUrlStage, hv, ih]

/-- C4: a base URL whose first fetched page body carries the
zero-results marker ends its scrape with the zeroResults outcome (not
a retried failure), and the target loop then marks every attempted
entry value := true in the persisted list, so a second run of the
stage re-attempts nothing. -/
theorem c4_zero_results_done (targets : List TargetEntry)
    (fetch : Nat → Option (List Char))
    (extractUrls : List Char → Option (List (List Char)))
    (body : List Char) (hf : fetch 1 = some body)
    (h404 : containsSeq marker404 body = false)
    (hzero : containsSeq markerZero body = true) :
    pageAttempts fetch extractUrls = (PageOutcome.zeroResults, 1)
    ∧ (∀ e ∈ targets, e.value = false → e.url ∈ (runUrlStage targets).2)
    ∧ (runUrlStage targets).1.map (fun e => e.url)
        = targets.map (fun e => e.url)
    ∧ (∀ e ∈ (runUrlStage targets).1, e.value = true)
    ∧ runUrlStage (runUrlStage targets).1 = ((runUrlStage targets).1, []) := by
  refine ⟨?_, runUrlStage_attempted targets, runUrlStage_urls targets,
    runUrlStage_all_done targets, runUrlStage_idempotent targets⟩
  simp [pageAttempts, pageAttemptsFrom, hf, h404, hzero]

/-- C4 witness: one pending entry whose page body is the zero-results
marker itself. -/
theorem c4_zero_results_done_witness :
    (fun (_ : Nat) => some markerZero) 1 = some markerZero
    ∧ containsSeq marker404 markerZero = false
    ∧ containsSeq markerZero markerZero = true
    ∧ (pageAttempts (fun _ => some markerZero) (fun _ => some [])
          = (PageOutcome.zeroResults, 1)
        ∧ (∀ e ∈ [(⟨"u1", false⟩ : TargetEntry)], e.value = false →
            e.url ∈ (runUrlStage [⟨"u1", false⟩]).2)
        ∧ (runUrlStage [(⟨"u1", false⟩ : TargetEntry)]).1.map (fun e => e.url)
            = [(⟨"u1", false⟩ : TargetEntry)].map (fun e => e.url)
        ∧ (∀ e ∈ (runUrlStage [(⟨"u1", false⟩ : TargetEntry)]).1, e.value = true)
        ∧ runUrlStage (runUrlStage [(⟨"u1", false⟩ : TargetEntry)]).1
            = ((runUrlStage [(⟨"u1", false⟩ : TargetEntry)]).1, [])) :=
  ⟨rfl, by decide, by decide,
    c4_zero_results_done [⟨"u1", false⟩] (fun _ => some markerZero)
      (fun _ => some []) markerZero rfl (by decide) (by decide)⟩

theorem markByOutcome_url (uow : String → Option String) (d : UrlDoc) :
    (markByOutcome uow d).url = d.url := by
  unfold markByOutcome
  cases uow d.url <;> rfl

theorem updateDoc_urlmap (k : String) (f : UrlDoc → UrlDoc)
    (hf : ∀ d, (f d).url = d.url) (urls : List UrlDoc) :
    (updateDoc k f urls).map (fun d => d.url) = urls.map (fun d => d.url) := by
  induction urls with
  | nil => rfl
  | cons d ds ih =>
    by_cases h : d.url = k <;> simp [updateDoc, h, hf, ih]

theorem updateDoc_congr (k : String) (f g : UrlDoc → UrlDoc)
    (h : ∀ d : UrlDoc, d.url = k → f d = g d) (urls : List UrlDoc) :
    updateDoc k f urls = updateDoc k g urls := by
  induction urls with
  | nil => rfl
  | cons d ds ih =>
    by_cases hd : d.url = k <;> simp [updateDoc, hd, ih]
    exact h d hd

theorem updateDoc_getElem (k : String) (f : UrlDoc → UrlDoc)
    (urls : List UrlDoc) (hnd : (urls.map (fun d => d.url)).Nodup)
    (i : Nat) (hi : i < urls.length) :
    (updateDoc k f urls)[i]?
      = some (if urls[i].url = k then f urls[i] else urls[i]) := by
  induction urls generalizing i with
  | nil => simp at hi
  | cons d ds ih =>
    simp only [List.map_cons, List.nodup_cons] at hnd
    cases i with
    | zero =>
      by_cases hd : d.url = k <;> simp [updateDoc, hd]
    | succ m =>
      have hm : m < ds.length := by simpa using hi
      by_cases hd : d.url = k
      · have hnot : (ds[m].url = k) = False := by
          simp only [eq_iff_iff, iff_false]
          intro hc
          exact hnd.1 (by
            refine List.mem_map.mpr ⟨ds[m], List.getElem_mem hm, ?_⟩
            rw [hc, hd])
        simp [updateDoc, hd, hnot, List.getElem?_eq_getElem hm]
      · simp [updateDoc, hd, ih hnd.2 m hm]

theorem jobStage_fold_urls (uow : String → Option String)
    (P : List UrlDoc) (s : JobStageState) :
    (P.foldl (jobStageStep uow) s).urls = foldUpdate uow P s.urls := by
  induction P generalizing s with
  | nil => rfl
  | cons d P' ih =>
    have hstep : (jobStageStep uow s d).urls
        = updateDoc d.url (markByOutcome uow) s.urls := by
      unfold jobStageStep
      cases hu : uow d.url <;> simp only [hu]
      · exact updateDoc_congr _ _ _
          (fun e he => by unfold markByOutcome; rw [he, hu]) s.urls
      · exact updateDoc_congr _ _ _
          (fun e he => by unfold markByOutcome; rw [he, hu]) s.urls
    calc (List.foldl (jobStageStep uow) s (d :: P')).urls
        = (List.foldl (jobStageStep uow) (jobStageStep uow s d) P').urls := by
          rw [List.foldl_cons]
      _ = foldUpdate uow P' (jobStageStep uow s d).urls := ih _
      _ = foldUpdate uow P' (updateDoc d.url (markByOutcome uow) s.urls) := by
          rw [hstep]
      _ = foldUpdate uow (d :: P') s.urls := rfl

theorem jobStage_fold_jobs (uow : String → Option String)
    (P : List UrlDoc) (s : JobStageState) :
    ∃ t, (P.foldl (jobStageStep uow) s).jobs = s.jobs ++ t := by
  induction P generalizing s with
  | nil => exact ⟨[], by simp⟩
  | cons d P' ih =>
    rw [List.foldl_cons]
    obtain ⟨t, ht⟩ := ih (jobStageStep uow s d)
    unfold jobStageStep at ht ⊢
    cases hu : uow d.url <;> rw [hu] at ht <;> simp at ht
    · exact ⟨t, ht⟩
    · exact ⟨_ :: t, by simpa using ht⟩

theorem foldUpdate_urlmap (uow : String → Option String)
    (P : List UrlDoc) (urls : List UrlDoc) :
    (foldUpdate uow P urls).map (fun d => d.url)
      = urls.map (fun d => d.url) := by
  induction P generalizing urls with
  | nil => rfl
  | cons d P' ih =>
    rw [foldUpdate, List.foldl_cons]
    rw [show (P'.foldl (fun u e => updateDoc e.url (markByOutcome uow) u)
        (updateDoc d.url (markByOutcome uow) urls))
        = foldUpdate uow P' (updateDoc d.url (markByOutcome uow) urls) from rfl]
    rw [ih, updateDoc_urlmap _ _ (markByOutcome_url uow)]

theorem foldUpdate_getElem (uow : String → Option String)
    (P : List UrlDoc) (urls : List UrlDoc)
    (hnd : (urls.map (fun d => d.url)).Nodup)
    (hP : (P.map (fun d => d.url)).Nodup)
    (i : Nat) (hi : i < urls.length) :
    (foldUpdate uow P urls)[i]?
      = some (if urls[i].url ∈ P.map (fun d => d.url)
          then markByOutcome uow urls[i] else urls[i]) := by
  induction P generalizing urls i with
  | nil =>
    simp [foldUpdate, List.getElem?_eq_getElem hi]
  | cons d P' ih =>
    simp only [List.map_cons, List.nodup_cons] at hP
    rw [foldUpdate, List.foldl_cons]
    rw [show (P'.foldl (fun u e => updateDoc e.url (markByOutcome uow) u)
        (updateDoc d.url (markByOutcome uow) urls))
        = foldUpdate uow P' (updateDoc d.url (markByOutcome uow) urls) from rfl]
    have hnd' : ((updateDoc d.url (markByOutcome uow) urls).map
        (fun d => d.url)).Nodup := by
      rw [updateDoc_urlmap _ _ (markByOutcome_url uow)]
      exact hnd
    have hi' : i < (updateDoc d.url (markByOutcome uow) urls).length := by
      have := congrArg List.length
        (updateDoc_urlmap d.url (markByOutcome uow) (markByOutcome_url uow) urls)
      simp only [List.length_map] at this
      omega
    rw [ih (updateDoc d.url (markByOutcome uow) urls) hnd' hP.2 i hi']
    have hup := updateDoc_getElem d.url (markByOutcome uow) urls hnd i hi
    have hupv : (updateDoc d.url (markByOutcome uow) urls)[i]
        = if urls[i].url = d.url then markByOutcome uow urls[i] else urls[i] := by
      have := List.getElem?_eq_getElem hi'
      rw [this] at hup
      exact Option.some.inj hup
    by_cases hd : urls[i].url = d.url
    · have hnotP' : urls[i].url ∉ P'.map (fun d => d.url) := by
        rw [hd]; exact hP.1
      rw [if_pos hd] at hupv
      rw [hupv, markByOutcome_url uow urls[i], if_neg hnotP']
      simp only [List.map_cons]
      rw [if_pos (by rw [hd]; exact List.mem_cons_self _ _)]
    · rw [if_neg hd] at hupv
      rw [hupv]
      simp only [List.map_cons]
      by_cases hmem : urls[i].url ∈ P'.map (fun d => d.url)
      · rw [if_pos hmem, if_pos (List.mem_cons_of_mem _ hmem)]
      · rw [if_neg hmem, if_neg (by
          intro hc
          rcases List.mem_cons.mp hc with hc | hc
          · exact hd hc
          · exact hmem hc)]

theorem pendingUrls_keys_nodup (urls : List UrlDoc)
    (hnd : (urls.map (fun d => d.url)).Nodup) :
    ((pendingUrls urls).map (fun d => d.url)).Nodup :=
  ((List.filter_sublist urls).map (fun d => d.url)).nodup hnd

theorem pending_mem_of_key (urls : List UrlDoc)
    (hnd : (urls.map (fun d => d.url)).Nodup)
    (i : Nat) (hi : i < urls.length)
    (hmem : urls[i].url ∈ (pendingUrls urls).map (fun d => d.url)) :
    urls[i].scraped = false := by
  obtain ⟨e, he, hurl⟩ := List.mem_map.mp hmem
  have heu : e ∈ urls := List.mem_of_mem_filter he
  have hef : e.scraped = false := by
    have := List.of_mem_filter he
    simpa using this
  have : e = urls[i] :=
    List.inj_on_of_nodup_map hnd heu (List.getElem_mem hi) hurl
  rw [← this]
  exact hef

theorem pending_key_of_unscraped (urls : List UrlDoc)
    (i : Nat) (hi : i < urls.length)
    (hun : urls[i].scraped = false) :
    urls[i].url ∈ (pendingUrls urls).map (fun d => d.url) := by
  refine List.mem_map.mpr ⟨urls[i], ?_, rfl⟩
  exact List.mem_filter.mpr ⟨List.getElem_mem hi, by simp [hun]⟩

theorem runJobStage_getElem (uow : String → Option String)
    (s : JobStageState) (hnd : (s.urls.map (fun d => d.url)).Nodup)
    (i : Nat) (hi : i < s.urls.length) :
    ((runJobStage uow s).1.urls)[i]? = some (docAfterRun uow s.urls[i]) := by
  rw [show (runJobStage uow s).1
      = (pendingUrls s.urls).foldl (jobStageStep uow) s from rfl]
  rw [jobStage_fold_urls]
  rw [foldUpdate_getElem uow (pendingUrls s.urls) s.urls hnd
    (pendingUrls_keys_nodup s.urls hnd) i hi]
  unfold docAfterRun
  by_cases hs : s.urls[i].scraped
  · rw [if_pos hs]
    rw [if_neg (fun hmem => by
      have hthis := pending_mem_of_key s.urls hnd i hi hmem
      rw [hs] at hthis
      exact Bool.noConfusion hthis)]
  · have hs' : s.urls[i].scraped = false := by
      simpa using hs
    rw [if_pos (pending_key_of_unscraped s.urls i hi hs')]
    rw [if_neg hs]
    unfold markByOutcome
    cases huow : uow s.urls[i].url <;> rfl

theorem runJobStage_urlmap (uow : String → Option String)
    (s : JobStageState) :
    (runJobStage uow s).1.urls.map (fun d => d.url)
      = s.urls.map (fun d => d.url) := by
  rw [show (runJobStage uow s).1
      = (pendingUrls s.urls).foldl (jobStageStep uow) s from rfl]
  rw [jobStage_fold_urls, foldUpdate_urlmap]

theorem runJobStage_length (uow : String → Option String)
    (s : JobStageState) :
    (runJobStage uow s).1.urls.length = s.urls.length := by
  have := congrArg List.length (runJobStage_urlmap uow s)
  simpa using this

theorem runJobStage_all_scraped (uow : String → Option String)
    (s : JobStageState) (hnd : (s.urls.map (fun d => d.url)).Nodup) :
    ∀ d ∈ (runJobStage uow s).1.urls, d.scraped = true := by
  intro d hd
  obtain ⟨i, hi, hget⟩ := List.getElem_of_mem hd
  have hi' : i < s.urls.length := by
    rw [← runJobStage_length uow s]; exact hi
  have := runJobStage_getElem uow s hnd i hi'
  rw [List.getElem?_eq_getElem hi, hget] at this
  have hval := Option.some.inj this
  rw [hval]
  unfold docAfterRun
  by_cases hs : s.urls[i].scraped
  · rw [if_pos hs]; exact hs
  · rw [if_neg hs]
    cases huow : uow s.urls[i].url <;> rfl

theorem runJobStage_second_run_empty (uow : String → Option String)
    (s : JobStageState) (hnd : (s.urls.map (fun d => d.url)).Nodup) :
    (runJobStage uow (runJobStage uow s).1).2 = [] := by
  have hall := runJobStage_all_scraped uow s hnd
  have hpend : pendingUrls (runJobStage uow s).1.urls = [] := by
    unfold pendingUrls
    rw [List.filter_eq_nil_iff]
    intro d hd
    simp [hall d hd]
  rw [show (runJobStage uow (runJobStage uow s).1).2
      = (pendingUrls (runJobStage uow s).1.urls).map (fun d => d.url) from rfl]
  rw [hpend]
  rfl

/-- C5: after one run of the job-data stage over a checkpoint
collection with distinct keys, the collection holds exactly the same
keys, and every document that was pending is now marked scraped=true,
with scrape_failed=true exactly on unit-of-work failure (success does
not touch the flag); already-done documents are untouched.  No pending
key is dropped: each position of the collection carries its terminal
mark. -/
theorem c5_partition_completeness (uow : String → Option String)
    (s : JobStageState) (hnd : (s.urls.map (fun d => d.url)).Nodup) :
    ((runJobStage uow s).1.urls.map (fun d => d.url)
        = s.urls.map (fun d => d.url))
    ∧ (∀ i, ∀ hi : i < s.urls.length,
        ((runJobStage uow s).1.urls)[i]? = some (docAfterRun uow s.urls[i]))
    ∧ (∀ i, ∀ _ : i < s.urls.length,
        s.urls[i].scraped = false →
          (docAfterRun uow s.urls[i]).scraped = true
          ∧ (docAfterRun uow s.urls[i]).url = s.urls[i].url
          ∧ (uow s.urls[i].url = none →
              (docAfterRun uow s.urls[i]).scrape_failed = true)
          ∧ (∀ p, uow s.urls[i].url = some p →
              (docAfterRun uow s.urls[i]).scrape_failed
                = s.urls[i].scrape_failed)) := by
  refine ⟨runJobStage_urlmap uow s,
    fun i hi => runJobStage_getElem uow s hnd i hi, ?_⟩
  intro i hi hun
  unfold docAfterRun
  rw [if_neg (by rw [hun]; exact Bool.noConfusion)]
  refine ⟨?_, ?_, ?_, ?_⟩
  · cases huow : uow s.urls[i].url <;> rfl
  · cases huow : uow s.urls[i].url <;> rfl
  · intro hnone; rw [hnone]; rfl
  · intro p hp; rw [hp]; rfl

/-- C5 witness: two pending documents with distinct keys, one
succeeding and one failing; the failing one ends scraped and
scrape_failed. -/
theorem c5_partition_completeness_witness :
    (([⟨"a", false, false⟩, ⟨"b", false, false⟩] : List UrlDoc).map
        (fun d => d.url)).Nodup
    ∧ ((runJobStage (fun u => if u = "a" then some "payload" else none)
          ⟨[⟨"a", false, false⟩, ⟨"b", false, false⟩], []⟩).1.urls)[1]?
        = some (⟨"b", true, true⟩ : UrlDoc) :=
  ⟨by decide,
    ((c5_partition_completeness
        (fun u => if u = "a" then some "payload" else none)
        ⟨[⟨"a", false, false⟩, ⟨"b", false, false⟩], []⟩
        (by decide)).2.1 1 (by decide)).trans (by rfl)⟩

theorem classify_fold_prefix (cls : SourceJob → Option String)
    (P : List SourceJob) (dest : List ClassifiedDoc) :
    ∃ t, P.foldl (classifyStep cls) dest = dest ++ t := by
  induction P generalizing dest with
  | nil => exact ⟨[], by simp⟩
  | cons j P' ih =>
    rw [List.foldl_cons]
    have hstep : classifyStep cls dest j
        = dest ++ (match cls j with
            | some b => [save_to_mongo_doc b (jobKey j)]
            | none => []) := by
      unfold classifyStep
      cases cls j <;> simp
    obtain ⟨t, ht⟩ := ih (classifyStep cls dest j)
    refine ⟨(match cls j with
      | some b => [save_to_mongo_doc b (jobKey j)]
      | none => []) ++ t, ?_⟩
    rw [ht, hstep, List.append_assoc]

theorem classify_fold_mem (cls : SourceJob → Option String)
    (P : List SourceJob) (dest : List ClassifiedDoc) :
    ∀ j ∈ P, ∀ b, cls j = some b →
      save_to_mongo_doc b (jobKey j) ∈ P.foldl (classifyStep cls) dest := by
  induction P generalizing dest with
  | nil => simp
  | cons j0 P' ih =>
    intro j hj b hb
    rw [List.mem_cons] at hj
    rw [List.foldl_cons]
    rcases hj with rfl | hj
    · have hstep : classifyStep cls dest j
          = dest ++ [save_to_mongo_doc b (jobKey j)] := by
        unfold classifyStep
        rw [hb]
      obtain ⟨t, ht⟩ := classify_fold_prefix cls P' (classifyStep cls dest j)
      rw [ht, hstep]
      exact List.mem_append_left _ (List.mem_append_right _ (by simp))
    · exact ih (classifyStep cls dest j0) j hj b hb

theorem classifiedUrls_append (a b : List ClassifiedDoc) :
    classifiedUrls (a ++ b) = classifiedUrls a ++ classifiedUrls b := by
  unfold classifiedUrls
  rw [List.filterMap_append]

/-- C2: a stage run attempts exactly the keys not marked done, leaves
done keys and previously stored records untouched, and a second run
right after a run attempts nothing.  The job-data stage needs distinct
checkpoint keys (the collection has a unique url index); the
classification stage needs the first run to have fully succeeded with
truthy source_url keys, since its failures stay pending by design. -/
theorem c2_stage_idempotence (uow : String → Option String)
    (s : JobStageState) (cls : SourceJob → Option String)
    (source : List SourceJob) (dest : List ClassifiedDoc)
    (hnd : (s.urls.map (fun d => d.url)).Nodup)
    (hok : ∀ j ∈ pendingJobs source dest,
      ∃ b u, cls j = some b ∧ j.source_url = some u ∧ u ≠ "") :
    ((runJobStage uow s).2 = (pendingUrls s.urls).map (fun d => d.url))
    ∧ (∀ u ∈ (runJobStage uow s).2,
        ∃ d ∈ s.urls, d.url = u ∧ d.scraped = false)
    ∧ (∀ i, ∀ hi : i < s.urls.length, s.urls[i].scraped = true →
        ((runJobStage uow s).1.urls)[i]? = some s.urls[i]
          ∧ s.urls[i].url ∉ (runJobStage uow s).2)
    ∧ (∃ t, (runJobStage uow s).1.jobs = s.jobs ++ t)
    ∧ ((runJobStage uow (runJobStage uow s).1).2 = [])
    ∧ ((runClassifyStage cls source dest).2 = pendingJobs source dest)
    ∧ (∀ j ∈ (runClassifyStage cls source dest).2, ∀ u,
        j.source_url = some u → u ∉ classifiedUrls dest)
    ∧ (∃ t, (runClassifyStage cls source dest).1 = dest ++ t)
    ∧ ((runClassifyStage cls source (runClassifyStage cls source dest).1).2
        = []) := by
  refine ⟨rfl, ?_, ?_, jobStage_fold_jobs uow (pendingUrls s.urls) s,
    runJobStage_second_run_empty uow s hnd, rfl, ?_, ?_, ?_⟩
  · intro u hu
    obtain ⟨d, hd, rfl⟩ := List.mem_map.mp hu
    exact ⟨d, List.mem_of_mem_filter hd, rfl, by
      have := List.of_mem_filter hd
      simpa using this⟩
  · intro i hi hdone
    constructor
    · rw [runJobStage_getElem uow s hnd i hi]
      unfold docAfterRun
      rw [if_pos hdone]
    · intro hmem
      have := pending_mem_of_key s.urls hnd i hi hmem
      rw [hdone] at this
      exact Bool.noConfusion this
  · intro j hj u hu
    have hpred := List.of_mem_filter hj
    rw [hu] at hpred
    simpa using hpred
  · exact classify_fold_prefix cls (pendingJobs source dest) dest
  · obtain ⟨t, ht⟩ := classify_fold_prefix cls (pendingJobs source dest) dest
    have hfinal : (runClassifyStage cls source dest).1 = dest ++ t := ht
    rw [show (runClassifyStage cls source
        (runClassifyStage cls source dest).1).2
        = pendingJobs source (runClassifyStage cls source dest).1 from rfl]
    unfold pendingJobs
    rw [List.filter_eq_nil_iff]
    intro j hj
    by_cases hpend : j ∈ pendingJobs source dest
    · obtain ⟨b, u, hb, hu, hne⟩ := hok j hpend
      have hdoc : save_to_mongo_doc b (jobKey j)
          ∈ (runClassifyStage cls source dest).1 :=
        classify_fold_mem cls (pendingJobs source dest) dest j hpend b hb
      have hkey : jobKey j = u := by
        unfold jobKey
        rw [hu]
        rfl
      have hdoc' : (⟨some u, b⟩ : ClassifiedDoc)
          ∈ (runClassifyStage cls source dest).1 := by
        rw [hkey] at hdoc
        unfold save_to_mongo_doc at hdoc
        rw [if_neg hne] at hdoc
        exact hdoc
      have humem : u ∈ classifiedUrls (runClassifyStage cls source dest).1 :=
        List.mem_filterMap.mpr ⟨⟨some u, b⟩, hdoc', rfl⟩
      simp [hu, humem]
    · have hj' : j ∈ source := hj
      unfold pendingJobs at hpend
      have hnotkeep := hpend
      rw [List.mem_filter] at hnotkeep
      cases hsrc : j.source_url with
      | none =>
        exfalso
        exact hnotkeep ⟨hj', by simp [hsrc]⟩
      | some u =>
        have humem : u ∈ classifiedUrls dest := by
          by_contra hcon
          exact hnotkeep ⟨hj', by simp [hsrc, hcon]⟩
        have : u ∈ classifiedUrls (runClassifyStage cls source dest).1 := by
          rw [hfinal, classifiedUrls_append]
          exact List.mem_append_left _ humem
        simp [hsrc, this]

/-- C2 witness: one done and one pending URL key; one already
classified and one fresh source job. -/
theorem c2_stage_idempotence_witness :
    (([⟨"a", true, false⟩, ⟨"b", false, false⟩] : List UrlDoc).map
        (fun d => d.url)).Nodup
    ∧ (∀ j ∈ pendingJobs [⟨some "s1", "p1"⟩, ⟨some "s2", "p2"⟩]
          [⟨some "s1", "done"⟩],
        ∃ b u, (fun (_ : SourceJob) => some "out") j = some b
          ∧ j.source_url = some u ∧ u ≠ "")
    ∧ ((runJobStage (fun _ => none)
          ⟨[⟨"a", true, false⟩, ⟨"b", false, false⟩], []⟩).2 = ["b"]
        ∧ (runClassifyStage (fun _ => some "out")
            [⟨some "s1", "p1"⟩, ⟨some "s2", "p2"⟩]
            (runClassifyStage (fun _ => some "out")
              [⟨some "s1", "p1"⟩, ⟨some "s2", "p2"⟩]
              [⟨some "s1", "done"⟩]).1).2 = []) := by
  have h := c2_stage_idempotence (fun _ => none)
    ⟨[⟨"a", true, false⟩, ⟨"b", false, false⟩], []⟩
    (fun _ => some "out")
    [⟨some "s1", "p1"⟩, ⟨some "s2", "p2"⟩]
    [⟨some "s1", "done"⟩]
    (by decide)
    (by
      intro j hj
      rw [show pendingJobs [⟨some "s1", "p1"⟩, ⟨some "s2", "p2"⟩]
          [⟨some "s1", "done"⟩] = [⟨some "s2", "p2"⟩] from rfl] at hj
      rw [List.mem_singleton] at hj
      subst hj
      exact ⟨"out", "s2", rfl, rfl, by decide⟩)
  refine ⟨by decide, ?_, h.1.trans (by rfl), h.2.2.2.2.2.2.2.2⟩
  intro j hj
  rw [show pendingJobs [⟨some "s1", "p1"⟩, ⟨some "s2", "p2"⟩]
      [⟨some "s1", "done"⟩] = [⟨some "s2", "p2"⟩] from rfl] at hj
  rw [List.mem_singleton] at hj
  subst hj
  exact ⟨"out", "s2", rfl, rfl, by decide⟩

theorem pruneCalls_window (now : ℚ) (calls : List ℚ) :
    ∀ c ∈ pruneCalls now calls, now - c < 1 := by
  intro c hc
  have := List.of_mem_filter hc
  simpa using this

theorem pruneCalls_length_le (now : ℚ) (calls : List ℚ) :
    (pruneCalls now calls).length ≤ calls.length :=
  List.length_filter_le _ _

theorem filter_length_lt_of_mem {α : Type} (p : α → Bool) (l : List α)
    (x : α) (hx : x ∈ l) (hpx : p x = false) :
    (l.filter p).length < l.length := by
  induction l with
  | nil => simp at hx
  | cons a l ih =>
    rw [List.mem_cons] at hx
    rcases hx with rfl | hx
    · rw [List.filter_cons, hpx]
      have := List.length_filter_le p l
      simpa using Nat.lt_succ_of_le this
    · rw [List.filter_cons]
      cases hpa : p a
      · simpa using Nat.lt_succ_of_le (Nat.le_of_lt (ih hx))
      · simpa using Nat.succ_lt_succ (ih hx)

/-- Invariant of one wait_if_needed call against an effective capacity
at most `B`: the call succeeds, the recorded window stays within `B`
timestamps, and every recorded timestamp is younger than one second. -/
theorem waitIfNeededEff_inv (effMax B : ℕ) (h1 : 1 ≤ effMax)
    (hB : effMax ≤ B) (s : LimiterState) (r : ℚ)
    (hlen : s.calls.length ≤ B) :
    ∃ s', waitIfNeededEff effMax s r = some s'
      ∧ s'.calls.length ≤ B
      ∧ ∀ c ∈ s'.calls, s'.clock - c < 1 := by
  by_cases hcap : effMax ≤ (pruneCalls (max s.clock r) s.calls).length
  · cases hp : pruneCalls (max s.clock r) s.calls with
    | nil =>
      rw [hp] at hcap
      simp at hcap
      omega
    | cons c0 rest =>
      have hc0 : c0 ∈ pruneCalls (max s.clock r) s.calls := by
        rw [hp]; exact List.mem_cons_self _ _
      have hc0w : max s.clock r - c0 < 1 :=
        pruneCalls_window (max s.clock r) s.calls c0 hc0
      have hsleep : 0 < 1 - (max s.clock r - c0) := by linarith
      refine ⟨⟨max s.clock r + (1 - (max s.clock r - c0)),
        pruneCalls (max s.clock r + (1 - (max s.clock r - c0)))
            (pruneCalls (max s.clock r) s.calls)
          ++ [max s.clock r + (1 - (max s.clock r - c0))]⟩, ?_, ?_, ?_⟩
      · unfold waitIfNeededEff
        rw [if_pos hcap, hp]
        simp only [if_pos hsleep]
      · have hc0out :
            decide (max s.clock r + (1 - (max s.clock r - c0)) - c0 < 1)
              = false := by
          simp only [decide_eq_false_iff_not, not_lt]
          linarith
        have hstrict := filter_length_lt_of_mem
          (fun c => decide (max s.clock r + (1 - (max s.clock r - c0)) - c < 1))
          (pruneCalls (max s.clock r) s.calls) c0 hc0 hc0out
        have hple := pruneCalls_length_le (max s.clock r) s.calls
        have : (pruneCalls (max s.clock r + (1 - (max s.clock r - c0)))
            (pruneCalls (max s.clock r) s.calls)).length
            < (pruneCalls (max s.clock r) s.calls).length := hstrict
        simp only [List.length_append, List.length_cons, List.length_nil]
        omega
      · intro c hc
        simp only [List.mem_append, List.mem_cons, List.not_mem_nil,
          or_false] at hc
        rcases hc with hc | rfl
        · exact pruneCalls_window _ _ c hc
        · simp
  · refine ⟨⟨max s.clock r,
      pruneCalls (max s.clock r) s.calls ++ [max s.clock r]⟩, ?_, ?_, ?_⟩
    · unfold waitIfNeededEff
      rw [if_neg hcap]
    · have : (pruneCalls (max s.clock r) s.calls).length < effMax := by
        omega
      simp only [List.length_append, List.length_cons, List.length_nil]
      omega
    · intro c hc
      simp only [List.mem_append, List.mem_cons, List.not_mem_nil,
        or_false] at hc
      rcases hc with hc | rfl
      · exact pruneCalls_window _ _ c hc
      · simp

theorem limiter_run_inv (step : LimiterState → ℚ → Option LimiterState)
    (B : ℕ)
    (hstep : ∀ s r, s.calls.length ≤ B →
      ∃ s', step s r = some s' ∧ s'.calls.length ≤ B
        ∧ ∀ c ∈ s'.calls, s'.clock - c < 1)
    (reqs : List ℚ) (s : LimiterState) (hs : s.calls.length ≤ B)
    (hw : ∀ c ∈ s.calls, s.clock - c < 1) :
    ∃ s', reqs.foldl (fun acc r => acc.bind (fun st => step st r)) (some s)
        = some s'
      ∧ s'.calls.length ≤ B ∧ ∀ c ∈ s'.calls, s'.clock - c < 1 := by
  induction reqs generalizing s with
  | nil => exact ⟨s, rfl, hs, hw⟩
  | cons r rest ih =>
    obtain ⟨s1, hs1, hlen1, hw1⟩ := hstep s r hs
    rw [List.foldl_cons]
    rw [show (some s).bind (fun st => step st r) = some s1 by
      simpa using hs1]
    exact ih s1 hlen1 hw1

theorem effectiveMaxCalls_pos (N : ℕ) (h2 : 2 ≤ N) (cpu : ℚ) :
    1 ≤ effectiveMaxCalls N cpu := by
  unfold effectiveMaxCalls
  split
  · have : 14 ≤ 7 * N := by omega
    have := Nat.div_le_div_right (c := 10) this
    omega
  · split
    · have : 12 ≤ 6 * N := by omega
      have := Nat.div_le_div_right (c := 5) this
      omega
    · omega

theorem effectiveMaxCalls_le (N : ℕ) (cpu : ℚ) :
    effectiveMaxCalls N cpu ≤ 6 * N / 5 := by
  unfold effectiveMaxCalls
  split
  · calc 7 * N / 10 ≤ 12 * N / 10 :=
        Nat.div_le_div_right (by omega)
      _ = 6 * N / 5 := by
        rw [show 12 * N = 2 * (6 * N) by ring, show (10 : ℕ) = 2 * 5 from rfl,
          Nat.mul_div_mul_left _ _ (by omega)]
  · split
    · exact Nat.le_refl _
    · exact Nat.le_div_iff_mul_le (by omega) |>.mpr (by omega)

theorem limiter_run_inv2 (N : ℕ)
    (hstep : ∀ (st : LimiterState) (rc : ℚ × ℚ),
      st.calls.length ≤ 6 * N / 5 →
      ∃ s', server_wait_if_needed N st rc.1 rc.2 = some s'
        ∧ s'.calls.length ≤ 6 * N / 5
        ∧ ∀ c ∈ s'.calls, s'.clock - c < 1)
    (reqs : List (ℚ × ℚ)) (s : LimiterState)
    (hs : s.calls.length ≤ 6 * N / 5)
    (hw : ∀ c ∈ s.calls, s.clock - c < 1) :
    ∃ s', reqs.foldl
        (fun acc r => acc.bind (fun st => server_wait_if_needed N st r.1 r.2))
        (some s) = some s'
      ∧ s'.calls.length ≤ 6 * N / 5
      ∧ ∀ c ∈ s'.calls, s'.clock - c < 1 := by
  induction reqs generalizing s with
  | nil => exact ⟨s, rfl, hs, hw⟩
  | cons r rest ih =>
    obtain ⟨s1, hs1, hlen1, hw1⟩ := hstep s r hs
    rw [List.foldl_cons]
    rw [show (some s).bind
        (fun st => server_wait_if_needed N st r.1 r.2) = some s1 by
      simpa using hs1]
    exact ih s1 hlen1 hw1

/-- C6: from an idle start, after any sequence of wait_if_needed calls
the fixed limiter's recorded window holds at most N timestamps — so
any trailing one-second window of recorded dispatch timestamps counts
at most N — all of them younger than one second; and the adaptive
server limiter's window holds at most int(N * 1.2) timestamps, the
capacity scaled by the bounded adaptive factor. -/
theorem c6_rate_limiter_window_bound (maxCalls N : ℕ) (h1 : 1 ≤ maxCalls)
    (h2 : 2 ≤ N) (reqs : List ℚ) (reqsA : List (ℚ × ℚ)) :
    (∃ s, runLimiter maxCalls reqs = some s
      ∧ s.calls.length ≤ maxCalls
      ∧ (∀ t : ℚ,
          (s.calls.filter (fun c => decide (t - 1 < c ∧ c ≤ t))).length
            ≤ maxCalls)
      ∧ ∀ c ∈ s.calls, s.clock - c < 1)
    ∧ (∃ s, runServerLimiter N reqsA = some s
      ∧ s.calls.length ≤ 6 * N / 5
      ∧ 5 * s.calls.length ≤ 6 * N
      ∧ ∀ c ∈ s.calls, s.clock - c < 1) := by
  constructor
  · obtain ⟨s, hs, hlen, hw⟩ := limiter_run_inv
      (fun st r => wait_if_needed maxCalls st r) maxCalls
      (fun st r hst =>
        waitIfNeededEff_inv maxCalls maxCalls h1 (Nat.le_refl _) st r hst)
      reqs ⟨0, []⟩ (by simp) (by simp)
    refine ⟨s, hs, hlen, fun t => ?_, hw⟩
    exact Nat.le_trans (List.length_filter_le _ _) hlen
  · have hstep : ∀ (st : LimiterState) (rc : ℚ × ℚ),
        st.calls.length ≤ 6 * N / 5 →
        ∃ s', server_wait_if_needed N st rc.1 rc.2 = some s'
          ∧ s'.calls.length ≤ 6 * N / 5
          ∧ ∀ c ∈ s'.calls, s'.clock - c < 1 := by
      intro st rc hst
      exact waitIfNeededEff_inv (effectiveMaxCalls N rc.2) (6 * N / 5)
        (effectiveMaxCalls_pos N h2 rc.2) (effectiveMaxCalls_le N rc.2)
        st rc.1 hst
    obtain ⟨s, hs, hlen, hw⟩ := limiter_run_inv2 N hstep reqsA ⟨0, []⟩
      (by simp) (by simp)
    refine ⟨s, hs, hlen, ?_, hw⟩
    have := Nat.div_mul_le_self (6 * N) 5
    calc 5 * s.calls.length ≤ 5 * (6 * N / 5) :=
        Nat.mul_le_mul_left _ hlen
      _ = 6 * N / 5 * 5 := Nat.mul_comm _ _
      _ ≤ 6 * N := Nat.div_mul_le_self _ _

/-- C6 witness: a fixed limiter of capacity 1 and an adaptive limiter
of capacity 2 on concrete request sequences. -/
theorem c6_rate_limiter_window_bound_witness :
    1 ≤ 1 ∧ 2 ≤ 2
    ∧ ((∃ s, runLimiter 1 [0, 0] = some s
        ∧ s.calls.length ≤ 1
        ∧ (∀ t : ℚ,
            (s.calls.filter (fun c => decide (t - 1 < c ∧ c ≤ t))).length
              ≤ 1)
        ∧ ∀ c ∈ s.calls, s.clock - c < 1)
      ∧ (∃ s, runServerLimiter 2 [(0, 0), (0, 90)] = some s
        ∧ s.calls.length ≤ 6 * 2 / 5
        ∧ 5 * s.calls.length ≤ 6 * 2
        ∧ ∀ c ∈ s.calls, s.clock - c < 1)) :=
  ⟨Nat.le_refl 1, Nat.le_refl 2,
    c6_rate_limiter_window_bound 1 2 (by decide) (by decide)
      [0, 0] [(0, 0), (0, 90)]⟩

/-- C1 counterexample: a response that parses as JSON but has no
prospecting_intel region is returned as a classified record, not
rejected. -/
theorem c1_missing_region_returned :
    classify_parse "\x7b\"foo\": 1\x7d".toList
      = Except.ok (Json.jobj [("foo".toList, Json.jnum 1)])
    ∧ hasKey (Json.jobj [("foo".toList, Json.jnum 1)])
        "prospecting_intel".toList = false :=
  ⟨rfl, rfl⟩

/-- C1 (amended): classify_job_post performs no shape validation at
all: whatever JSON value the response text parses to — in particular
an object missing any of the required regions — is returned unchanged;
an error arises only when nothing parses. -/
theorem c1_no_shape_validation (raw : List Char) (v : Json)
    (h : jsonParse raw = some v) : classify_parse raw = Except.ok v := by
  unfold classify_parse
  rw [h]

/-- C1 witness: the region-less object of the counterexample flows
through the amended theorem. -/
theorem c1_no_shape_validation_witness :
    jsonParse "\x7b\"foo\": 1\x7d".toList
      = some (Json.jobj [("foo".toList, Json.jnum 1)])
    ∧ classify_parse "\x7b\"foo\": 1\x7d".toList
      = Except.ok (Json.jobj [("foo".toList, Json.jnum 1)]) :=
  ⟨rfl, c1_no_shape_validation _ _ rfl⟩

theorem dropWhile_head_false {α : Type} (p : α → Bool) (l : List α)
    (x : α) (xs : List α) (h : l.dropWhile p = x :: xs) : p x = false := by
  induction l with
  | nil => simp at h
  | cons a l ih =>
    by_cases hp : p a
    · rw [List.dropWhile_cons_of_pos hp] at h
      exact ih h
    · rw [List.dropWhile_cons_of_neg hp] at h
      cases h
      simpa using hp

theorem dropWhile_append_all {α : Type} (p : α → Bool) (l₁ l₂ : List α)
    (h : ∀ x ∈ l₁, p x = true) :
    (l₁ ++ l₂).dropWhile p = l₂.dropWhile p := by
  induction l₁ with
  | nil => rfl
  | cons a l ih =>
    rw [List.cons_append,
      List.dropWhile_cons_of_pos (h a (List.mem_cons_self _ _))]
    exact ih (fun x hx => h x (List.mem_cons_of_mem _ hx))

/-- Extensional characterization of the regex model: braceSub returns
t exactly when the input splits as pre ++ t ++ post with t running
from the first opening brace to the last closing brace. -/
theorem braceSub_eq_some_iff (cs t : List Char) :
    braceSub cs = some t
      ↔ ∃ pre mid post, cs = pre ++ t ++ post
          ∧ t = '{' :: (mid ++ ['}'])
          ∧ '{' ∉ pre ∧ '}' ∉ post := by
  constructor
  · intro h
    unfold braceSub at h
    cases hk : keepToLastClose (dropToBrace cs) with
    | nil => rw [hk] at h; exact absurd h (by simp)
    | cons c0 crest =>
      rw [hk] at h
      have ht : t = c0 :: crest := by
        have := Option.some.inj h
        exact this.symm
      subst ht
      -- decompose cs around dropToBrace
      have hsplit : cs.takeWhile (fun c => c ≠ '{') ++ dropToBrace cs = cs :=
        List.takeWhile_append_dropWhile _ _
      have hpre : '{' ∉ cs.takeWhile (fun c => c ≠ '{') := by
        intro hmem
        have := List.mem_takeWhile_imp hmem
        simp at this
      -- decompose dropToBrace cs around the reversed dropWhile
      have hsplit2 : (dropToBrace cs).reverse.takeWhile (fun c => c ≠ '}')
          ++ (dropToBrace cs).reverse.dropWhile (fun c => c ≠ '}')
          = (dropToBrace cs).reverse :=
        List.takeWhile_append_dropWhile _ _
      have hkeep : ((dropToBrace cs).reverse.dropWhile
          (fun c => c ≠ '}')).reverse = c0 :: crest := hk
      have hd : dropToBrace cs
          = (c0 :: crest)
            ++ ((dropToBrace cs).reverse.takeWhile (fun c => c ≠ '}')).reverse := by
        have := congrArg List.reverse hsplit2
        rw [List.reverse_append] at this
        rw [List.reverse_reverse] at this
        rw [hkeep] at this
        exact this.symm
      have hpost : '}' ∉ ((dropToBrace cs).reverse.takeWhile
          (fun c => c ≠ '}')).reverse := by
        intro hmem
        rw [List.mem_reverse] at hmem
        have := List.mem_takeWhile_imp hmem
        simp at this
      -- head of dropToBrace is the opening brace
      have hdne : dropToBrace cs ≠ [] := by
        rw [hd]; simp
      have hc0 : c0 = '{' := by
        cases hdt : dropToBrace cs with
        | nil => exact absurd hdt hdne
        | cons d0 drest =>
          have hd0 : (fun c => decide (c ≠ '{')) d0 = false :=
            dropWhile_head_false _ cs d0 drest hdt
          have hd0' : d0 = '{' := by simpa using hd0
          rw [hdt] at hd
          have : d0 = c0 := by
            have := congrArg (fun l => l.head?) hd
            simpa using this
          rw [← this, hd0']
      -- last element of the kept part is the closing brace
      subst hc0
      have hlast : ∃ mid, '{' :: crest = '{' :: (mid ++ ['}']) := by
        cases he : (dropToBrace cs).reverse.dropWhile (fun c => c ≠ '}') with
        | nil =>
          rw [he] at hkeep
          exact absurd hkeep.symm (by simp)
        | cons e0 erest =>
          have he0 : (fun c => decide (c ≠ '}')) e0 = false :=
            dropWhile_head_false _ _ e0 erest he
          have he0' : e0 = '}' := by simpa using he0
          rw [he, he0', List.reverse_cons] at hkeep
          cases her : erest.reverse with
          | nil =>
            rw [her] at hkeep
            simp at hkeep
          | cons m0 mrest =>
            rw [her] at hkeep
            rw [List.cons_append] at hkeep
            have hm0 : m0 = '{' := (List.cons.inj hkeep).1
            have hcrest : mrest ++ ['}'] = crest := (List.cons.inj hkeep).2
            refine ⟨mrest, ?_⟩
            rw [← hcrest]
      obtain ⟨mid, hmid⟩ := hlast
      refine ⟨cs.takeWhile (fun c => c ≠ '{'), mid,
        ((dropToBrace cs).reverse.takeWhile (fun c => c ≠ '}')).reverse,
        ?_, hmid, hpre, hpost⟩
      conv_lhs => rw [← hsplit, hd]
      simp
  · rintro ⟨pre, mid, post, rfl, rfl, hpre, hpost⟩
    have hallpre : ∀ x ∈ pre, (fun c => decide (c ≠ '{')) x = true := by
      intro x hx
      simp only [decide_eq_true_eq]
      intro hc
      exact hpre (hc ▸ hx)
    have hallpost : ∀ x ∈ post.reverse,
        (fun c => decide (c ≠ '}')) x = true := by
      intro x hx
      simp only [List.mem_reverse] at hx
      simp only [decide_eq_true_eq]
      intro hc
      exact hpost (hc ▸ hx)
    have h1 : dropToBrace (pre ++ ('{' :: (mid ++ ['}'])) ++ post)
        = ('{' :: (mid ++ ['}'])) ++ post := by
      unfold dropToBrace
      rw [List.append_assoc, dropWhile_append_all _ pre _ hallpre]
      rfl
    have h2 : keepToLastClose (('{' :: (mid ++ ['}'])) ++ post)
        = '{' :: (mid ++ ['}']) := by
      unfold keepToLastClose
      have hrev : (('{' :: (mid ++ ['}'])) ++ post).reverse
          = post.reverse ++ ('}' :: (mid.reverse ++ ['{'])) := by
        simp
      rw [hrev, dropWhile_append_all _ post.reverse _ hallpost]
      simp
    unfold braceSub
    rw [h1, h2]

/-- C8 counterexample: direct parse of the raw text fails, a valid
JSON object does occur as a substring, yet recovery raises because the
single first-brace-to-last-brace candidate does not parse. -/
theorem c8_smaller_substring_not_recovered :
    classify_parse "\x7b\"a\": 1\x7d \x7d".toList
      = Except.error ClassifyError.invalidJson
    ∧ jsonParse "\x7b\"a\": 1\x7d".toList
      = some (Json.jobj [("a".toList, Json.jnum 1)])
    ∧ containsSeq "\x7b\"a\": 1\x7d".toList "\x7b\"a\": 1\x7d \x7d".toList
      = true :=
  ⟨rfl, rfl, rfl⟩

/-- C8 (amended): when direct parsing fails, recovery considers only
the single substring running from the first opening brace to the last
closing brace: classify succeeds exactly when that candidate parses,
and raises otherwise, even if some other substring would parse. -/
theorem c8_brace_substring_recovery (raw : List Char) (v : Json)
    (hfail : jsonParse raw = none) :
    classify_parse raw = Except.ok v
      ↔ ∃ pre mid post, raw = pre ++ ('{' :: (mid ++ ['}'])) ++ post
          ∧ '{' ∉ pre ∧ '}' ∉ post
          ∧ jsonParse ('{' :: (mid ++ ['}'])) = some v := by
  cases hb : braceSub raw with
  | none =>
    have hval : classify_parse raw = Except.error ClassifyError.noJsonFound := by
      unfold classify_parse
      rw [hfail, hb]
    rw [hval]
    constructor
    · intro h
      exact absurd h (by simp)
    · rintro ⟨pre, mid, post, hcs, hpre, hpost, hv⟩
      have hsome := (braceSub_eq_some_iff raw _).mpr
        ⟨pre, mid, post, hcs, rfl, hpre, hpost⟩
      rw [hb] at hsome
      exact absurd hsome (by simp)
  | some t =>
    obtain ⟨pre, mid, post, hcs, htv, hpre, hpost⟩ :=
      (braceSub_eq_some_iff raw t).mp hb
    cases hjt : jsonParse t with
    | none =>
      have hval : classify_parse raw
          = Except.error ClassifyError.invalidJson := by
        unfold classify_parse
        rw [hfail, hb]
        simp [hjt]
      rw [hval]
      constructor
      · intro h
        exact absurd h (by simp)
      · rintro ⟨pre2, mid2, post2, hcs2, hpre2, hpost2, hv2⟩
        have hsome := (braceSub_eq_some_iff raw _).mpr
          ⟨pre2, mid2, post2, hcs2, rfl, hpre2, hpost2⟩
        rw [hb] at hsome
        have ht2 := Option.some.inj hsome
        rw [← ht2, hjt] at hv2
        exact absurd hv2 (by simp)
    | some d =>
      have hval : classify_parse raw = Except.ok d := by
        unfold classify_parse
        rw [hfail, hb]
        simp [hjt]
      rw [hval]
      constructor
      · intro h
        have hdv : d = v := Except.ok.inj h
        refine ⟨pre, mid, post, ?_, hpre, hpost, ?_⟩
        · rw [← htv]; exact hcs
        · rw [← htv, hjt, hdv]
      · rintro ⟨pre2, mid2, post2, hcs2, hpre2, hpost2, hv2⟩
        have hsome := (braceSub_eq_some_iff raw _).mpr
          ⟨pre2, mid2, post2, hcs2, rfl, hpre2, hpost2⟩
        rw [hb] at hsome
        have ht2 := Option.some.inj hsome
        rw [← ht2, hjt] at hv2
        have := Option.some.inj hv2
        rw [this]

/-- C8 witness: an empty object wrapped in text is recovered through
the brace-to-brace candidate. -/
theorem c8_brace_substring_recovery_witness :
    jsonParse "xx \x7b\x7d yy".toList = none
    ∧ classify_parse "xx \x7b\x7d yy".toList = Except.ok (Json.jobj []) :=
  ⟨rfl,
    (c8_brace_substring_recovery "xx \x7b\x7d yy".toList (Json.jobj [])
        rfl).mpr
      ⟨"xx ".toList, [], " yy".toList, rfl, by decide, by decide, rfl⟩⟩

theorem find_map_set_self (k : Option String) (v : FVal) (d : JobDict) :
    List.find? (fun p => decide (p.1 = k))
        (d.map (fun p => if p.1 = k then (p.1, v) else p))
      = (List.find? (fun p => decide (p.1 = k)) d).map
          (fun p => (p.1, v)) := by
  induction d with
  | nil => rfl
  | cons p rest ih =>
    by_cases hp : p.1 = k
    · rw [List.map_cons, if_pos hp]
      rw [List.find?_cons_of_pos _ (by simpa using hp)]
      rw [List.find?_cons_of_pos _ (by simpa using hp)]
      rfl
    · rw [List.map_cons, if_neg hp]
      rw [List.find?_cons_of_neg _ (by simpa using hp)]
      rw [List.find?_cons_of_neg _ (by simpa using hp)]
      exact ih

theorem find_map_set_ne (k k' : Option String) (v : FVal) (hne : k' ≠ k)
    (d : JobDict) :
    List.find? (fun p => decide (p.1 = k'))
        (d.map (fun p => if p.1 = k then (p.1, v) else p))
      = List.find? (fun p => decide (p.1 = k')) d := by
  induction d with
  | nil => rfl
  | cons p rest ih =>
    by_cases hp : p.1 = k
    · have hp' : ¬(p.1 = k') := by
        rw [hp]
        exact fun hc => hne hc.symm
      rw [List.map_cons, if_pos hp]
      rw [List.find?_cons_of_neg _ (by simpa using hp')]
      rw [List.find?_cons_of_neg _ (by simpa using hp')]
      exact ih
    · by_cases hp' : p.1 = k'
      · rw [List.map_cons, if_neg hp]
        rw [List.find?_cons_of_pos _ (by simpa using hp')]
        rw [List.find?_cons_of_pos _ (by simpa using hp')]
      · rw [List.map_cons, if_neg hp]
        rw [List.find?_cons_of_neg _ (by simpa using hp')]
        rw [List.find?_cons_of_neg _ (by simpa using hp')]
        exact ih

theorem find_append_single_self (k : Option String) (v : FVal)
    (d : JobDict) (h : dictHas d k = false) :
    List.find? (fun p => decide (p.1 = k)) (d ++ [(k, v)])
      = some (k, v) := by
  induction d with
  | nil =>
    rw [List.nil_append]
    rw [List.find?_cons_of_pos _ (by simp)]
  | cons p rest ih =>
    unfold dictHas at h
    rw [List.any_cons, Bool.or_eq_false_iff] at h
    have hp : ¬(p.1 = k) := by simpa using h.1
    rw [List.cons_append]
    rw [List.find?_cons_of_neg _ (by simpa using hp)]
    exact ih h.2

theorem find_append_single_ne (k k' : Option String) (v : FVal)
    (hne : k' ≠ k) (d : JobDict) :
    List.find? (fun p => decide (p.1 = k')) (d ++ [(k, v)])
      = List.find? (fun p => decide (p.1 = k')) d := by
  induction d with
  | nil =>
    have hkk : ¬(k = k') := fun hc => hne hc.symm
    rw [List.nil_append]
    rw [List.find?_cons_of_neg _ (by simpa using hkk)]
  | cons p rest ih =>
    by_cases hp' : p.1 = k'
    · rw [List.cons_append]
      rw [List.find?_cons_of_pos _ (by simpa using hp')]
      rw [List.find?_cons_of_pos _ (by simpa using hp')]
    · rw [List.cons_append]
      rw [List.find?_cons_of_neg _ (by simpa using hp')]
      rw [List.find?_cons_of_neg _ (by simpa using hp')]
      exact ih

theorem find_some_of_has (k : Option String) (d : JobDict)
    (h : dictHas d k = true) :
    ∃ q, List.find? (fun p => decide (p.1 = k)) d = some q := by
  induction d with
  | nil => simp [dictHas] at h
  | cons p rest ih =>
    by_cases hp : p.1 = k
    · exact ⟨p, List.find?_cons_of_pos _ (by simpa using hp)⟩
    · unfold dictHas at h
      rw [List.any_cons, Bool.or_eq_true] at h
      rcases h with h | h
      · exact absurd (by simpa using h) hp
      · obtain ⟨q, hq⟩ := ih h
        refine ⟨q, ?_⟩
        rw [List.find?_cons_of_neg _ (by simpa using hp)]
        exact hq

theorem dictGet_dictSet_self (d : JobDict) (k : Option String) (v : FVal) :
    dictGet (dictSet d k v) k = some v := by
  unfold dictSet
  by_cases h : dictHas d k
  · rw [if_pos h]
    unfold dictGet
    rw [find_map_set_self]
    obtain ⟨q, hq⟩ := find_some_of_has k d h
    rw [hq]
    rfl
  · rw [if_neg h]
    unfold dictGet
    rw [find_append_single_self k v d (by simpa using h)]
    rfl

theorem dictGet_dictSet_ne (d : JobDict) (k k' : Option String) (v : FVal)
    (hne : k' ≠ k) : dictGet (dictSet d k v) k' = dictGet d k' := by
  unfold dictSet
  by_cases h : dictHas d k
  · rw [if_pos h]
    unfold dictGet
    rw [find_map_set_ne k k' v hne]
  · rw [if_neg h]
    unfold dictGet
    rw [find_append_single_ne k k' v hne]

theorem dictHas_of_get_some (d : JobDict) (k : Option String) (fv : FVal)
    (h : dictGet d k = some fv) : dictHas d k = true := by
  unfold dictGet at h
  unfold dictHas
  induction d with
  | nil => simp at h
  | cons p rest ih =>
    by_cases hp : p.1 = k
    · simp [hp]
    · rw [List.find?_cons_of_neg _ (by simpa using hp)] at h
      rw [List.any_cons]
      simp [hp, ih h]

theorem dictAppendAt_preserve_vstr (d d' : JobDict) (k0 k : Option String)
    (v : String) (x : Option String)
    (happ : dictAppendAt d k0 v = some d')
    (hget : dictGet d k = some (FVal.vstr x)) :
    dictGet d' k = some (FVal.vstr x) := by
  unfold dictAppendAt at happ
  by_cases hhas : dictHas d k0
  · rw [if_pos hhas] at happ
    cases hg : dictGet d k0 with
    | none => rw [hg] at happ; exact absurd happ (by simp)
    | some fv =>
      cases fv with
      | vstr s =>
        rw [hg] at happ
        exact absurd happ (by simp)
      | vlist ss =>
        rw [hg] at happ
        have hd' := Option.some.inj happ
        by_cases hk : k = k0
        · rw [hk, hg] at hget
          exact absurd (Option.some.inj hget) (by simp)
        · rw [← hd', dictGet_dictSet_ne _ _ _ _ hk]
          exact hget
  · rw [if_neg hhas] at happ
    have hd' := Option.some.inj happ
    by_cases hk : k = k0
    · rw [hk] at hget
      rw [dictHas_of_get_some d k0 _ hget] at hhas
      exact absurd rfl hhas
    · rw [← hd', dictGet_dictSet_ne _ _ _ _ hk]
      exact hget

theorem processDivB_preserve_vstr (d d' : JobDict) (n : HNode)
    (k : Option String) (x : Option String)
    (happ : processDivB d n = some d')
    (hget : dictGet d k = some (FVal.vstr x)) :
    dictGet d' k = some (FVal.vstr x) := by
  unfold processDivB at happ
  cases hi : ((descendantsOf n).filter (fun m => tagIs m "img")).head? with
  | none =>
    rw [hi] at happ
    rw [← Option.some.inj happ]
    exact hget
  | some img =>
    rw [hi] at happ
    cases hv : ((descendantsOf n).filter (fun m =>
        cssMatch m "div" gridInnerClasses)).head? with
    | none =>
      rw [hv] at happ
      rw [← Option.some.inj happ]
      exact hget
    | some inner =>
      rw [hv] at happ
      exact dictAppendAt_preserve_vstr d d' (attrOf img "alt") k _ x happ hget

theorem foldOptList_preserve_vstr
    (f : JobDict → HNode → Option JobDict)
    (hf : ∀ d n d', f d n = some d' → ∀ k x,
      dictGet d k = some (FVal.vstr x) → dictGet d' k = some (FVal.vstr x))
    (l : List HNode) :
    ∀ d d', foldOptList f d l = some d' → ∀ k x,
      dictGet d k = some (FVal.vstr x) →
      dictGet d' k = some (FVal.vstr x) := by
  induction l with
  | nil =>
    intro d d' h k x hget
    unfold foldOptList at h
    rw [← Option.some.inj h]
    exact hget
  | cons n rest ih =>
    intro d d' h k x hget
    unfold foldOptList at h
    cases hs : f d n with
    | none => rw [hs] at h; exact absurd h (by simp)
    | some d1 =>
      rw [hs] at h
      exact ih d1 d' h k x (hf d n d1 hs k x hget)

theorem processGrid_preserve_vstr (tree : HNode) (d d' : JobDict)
    (k : Option String) (x : Option String)
    (h : processGrid tree d = some d')
    (hget : dictGet d k = some (FVal.vstr x)) :
    dictGet d' k = some (FVal.vstr x) := by
  unfold processGrid at h
  refine foldOptList_preserve_vstr _ ?_ _ d d' h k x hget
  intro d1 n d2 hstep k1 x1 hget1
  exact foldOptList_preserve_vstr processDivB
    (fun da na da' ha ka xa => processDivB_preserve_vstr da da' na ka xa ha)
    _ d1 d2 hstep k1 x1 hget1

theorem funding_fold_preserve (ps : List (String × String))
    (k : Option String) (h : ∀ p ∈ ps, (some p.1 : Option String) ≠ k) :
    ∀ d : JobDict,
      dictGet (ps.foldl
        (fun d' p => dictSet d' (some p.1) (FVal.vstr (some p.2))) d) k
      = dictGet d k := by
  induction ps with
  | nil => intro d; rfl
  | cons p ps' ih =>
    intro d
    rw [List.foldl_cons]
    rw [ih (fun q hq => h q (List.mem_cons_of_mem _ hq))]
    exact dictGet_dictSet_ne _ _ _ _ (Ne.symm (h p (List.mem_cons_self _ _)))

theorem applyFunding_preserve (tree : HNode) (d : JobDict)
    (k : Option String)
    (h : ∀ p ∈ fundingPairs tree, (some p.1 : Option String) ≠ k) :
    dictGet (applyFunding tree d) k = dictGet d k :=
  funding_fold_preserve (fundingPairs tree) k h d

theorem preGridDict_company (tree jd : HNode) :
    dictGet (preGridDict tree jd) (some "company_name")
      = some (FVal.vstr ((companyTexts jd).head?.map pyStrip)) := by
  unfold preGridDict
  cases hul : ulOf jd <;>
    simp +decide [dictGet_dictSet_ne, dictGet_dictSet_self]

theorem preGridDict_position (tree jd : HNode) :
    dictGet (preGridDict tree jd) (some "position")
      = some (FVal.vstr ((positionTexts jd).head?.map pyStrip)) := by
  unfold preGridDict
  cases hul : ulOf jd <;>
    simp +decide [dictGet_dictSet_ne, dictGet_dictSet_self]

theorem extract_eq_match (tree jd : HNode)
    (hfind : findJobListing tree = some jd) :
    extract_job_data tree
      = match processGrid tree (preGridDict tree jd) with
        | none => none
        | some g => some (postGridDict tree g) := by
  unfold extract_job_data
  rw [hfind]
  rfl

/-- C7 counterexample: a document whose JobListing anchor is present
but whose company grid carries a cell labelled alt="company_name"; the
append onto the scalar company_name field raises AttributeError, the
enclosing except returns None — so extraction yields null with the
anchor present. -/
theorem c7_none_with_anchor_present :
    (findJobListing exGridCollisionTree).isSome = true
    ∧ extract_job_data exGridCollisionTree = none :=
  ⟨rfl, rfl⟩

/-- C7 (amended): extract_job_data is total (never raises) and returns
null exactly when the JobListing anchor is missing or the dynamic
company-grid section hits an internal error (a grid key colliding with
a scalar field); on a successful extraction each field holds the value
of its own extractor — so one field's parse failure (an empty query
result, stored as None) never disturbs another field — with the
company_name and position characterizations holding whenever the
page's funding labels do not collide with those field names. -/
theorem c7_extract_isolation (tree jd : HNode) (d : JobDict)
    (hfind : findJobListing tree = some jd)
    (hext : extract_job_data tree = some d)
    (hcomp : "company_name" ∉ (fundingPairs tree).map (fun p => p.1))
    (hpos : "position" ∉ (fundingPairs tree).map (fun p => p.1)) :
    (∀ t2 : HNode, extract_job_data t2 = none
        ↔ (findJobListing t2 = none
            ∨ ∃ jd2, findJobListing t2 = some jd2
                ∧ processGrid t2 (preGridDict t2 jd2) = none))
    ∧ dictGet d (some "founder") = some (FVal.vstr (founderVal tree))
    ∧ dictGet d (some "company_name")
        = some (FVal.vstr ((companyTexts jd).head?.map pyStrip))
    ∧ dictGet d (some "position")
        = some (FVal.vstr ((positionTexts jd).head?.map pyStrip))
    ∧ (companyTexts jd = [] →
        dictGet d (some "company_name") = some (FVal.vstr none)) := by
  have hnone_iff : ∀ t2 : HNode, extract_job_data t2 = none
      ↔ (findJobListing t2 = none
          ∨ ∃ jd2, findJobListing t2 = some jd2
              ∧ processGrid t2 (preGridDict t2 jd2) = none) := by
    intro t2
    cases hf2 : findJobListing t2 with
    | none =>
      have hval : extract_job_data t2 = none := by
        unfold extract_job_data
        rw [hf2]
      constructor
      · intro _
        exact Or.inl rfl
      · intro _
        exact hval
    | some jd2 =>
      rw [extract_eq_match t2 jd2 hf2]
      cases hpg2 : processGrid t2 (preGridDict t2 jd2) with
      | none =>
        constructor
        · intro _
          exact Or.inr ⟨jd2, rfl, hpg2⟩
        · intro _
          rfl
      | some g =>
        constructor
        · intro h
          exact absurd h (by simp)
        · rintro (h | ⟨jd3, hjd3, hpg3⟩)
          · exact absurd h (by simp)
          · have : jd3 = jd2 := (Option.some.inj hjd3).symm
            rw [this, hpg2] at hpg3
            exact absurd hpg3 (by simp)
  rw [extract_eq_match tree jd hfind] at hext
  cases hpg : processGrid tree (preGridDict tree jd) with
  | none =>
    rw [hpg] at hext
    exact absurd hext (by simp)
  | some g =>
    rw [hpg] at hext
    have hd : postGridDict tree g = d := Option.some.inj hext
    subst hd
    have hfund_comp : ∀ p ∈ fundingPairs tree,
        (some p.1 : Option String) ≠ some "company_name" := by
      intro p hp hc
      exact hcomp (List.mem_map.mpr ⟨p, hp, Option.some.inj hc⟩)
    have hfund_pos : ∀ p ∈ fundingPairs tree,
        (some p.1 : Option String) ≠ some "position" := by
      intro p hp hc
      exact hpos (List.mem_map.mpr ⟨p, hp, Option.some.inj hc⟩)
    have hcompany : dictGet (postGridDict tree g) (some "company_name")
        = some (FVal.vstr ((companyTexts jd).head?.map pyStrip)) := by
      unfold postGridDict
      rw [dictGet_dictSet_ne _ _ _ _ (by decide)]
      rw [applyFunding_preserve tree _ _ hfund_comp]
      rw [dictGet_dictSet_ne _ _ _ _ (by decide)]
      rw [dictGet_dictSet_ne _ _ _ _ (by decide)]
      exact processGrid_preserve_vstr tree _ g _ _ hpg
        (preGridDict_company tree jd)
    refine ⟨hnone_iff, ?_, hcompany, ?_, ?_⟩
    · unfold postGridDict
      rw [dictGet_dictSet_self]
    · unfold postGridDict
      rw [dictGet_dictSet_ne _ _ _ _ (by decide)]
      rw [applyFunding_preserve tree _ _ hfund_pos]
      rw [dictGet_dictSet_ne _ _ _ _ (by decide)]
      rw [dictGet_dictSet_ne _ _ _ _ (by decide)]
      exact processGrid_preserve_vstr tree _ g _ _ hpg
        (preGridDict_position tree jd)
    · intro hempty
      rw [hcompany, hempty]
      rfl

/-- C7 witness: a bare JobListing container extracts successfully;
its founder and company_name fields carry their extractors' values. -/
theorem c7_extract_isolation_witness :
    findJobListing plainJobTree = some plainJobTree
    ∧ extract_job_data plainJobTree
        = some ((extract_job_data plainJobTree).getD [])
    ∧ "company_name" ∉ (fundingPairs plainJobTree).map (fun p => p.1)
    ∧ dictGet ((extract_job_data plainJobTree).getD []) (some "founder")
        = some (FVal.vstr (founderVal plainJobTree))
    ∧ dictGet ((extract_job_data plainJobTree).getD [])
        (some "company_name") = some (FVal.vstr none) :=
  ⟨rfl, rfl, by decide,
    (c7_extract_isolation plainJobTree plainJobTree _ rfl rfl (by decide)
      (by decide)).2.1,
    (c7_extract_isolation plainJobTree plainJobTree _ rfl rfl (by decide)
      (by decide)).2.2.2.2 rfl⟩

end DataScraping
